import Mathlib

/-!
# Verification of the ORC decoder core (haohui/orc, C++ read path)

This file shallowly embeds the decoder core of the repository — the RLE v2
integer decoder (`src/RLEv2.cc`), the file-trailer/magic validation, column
selection, batch-level `next`, and the typed statistics accessors
(`src/Reader.cc`) — as executable Lean definitions, and proves the frozen
specification claims about them.

Conventions of the embedding:
* C++ 64-bit machine integers (`long` / `unsigned long`) are represented by
  their 64-bit two's-complement bit pattern, a `Nat` below `2^64`; wrapping
  arithmetic is explicit (`mask64`, `add64`, `sub64`, `neg64`), and a pattern
  is read back as a signed value with `sInt64`.
* Byte streams are `List Nat` of byte values; reading past the end models the
  `SeekableInputStream::Next` failure and raises the same `ParseError` as the
  source (`"bad read in readByte"`).
* C++ exceptions are modelled with `Except OrcErr`.
* Loops whose C++ termination rests on run-time invariants are given an
  explicit fuel argument; the fuel chosen at each call site is shown (in the
  theorems) to be sufficient under those invariants.
-/

set_option maxRecDepth 20000

namespace Orc

/-- `2^64`, the modulus of the C++ 64-bit integer types used by the decoder. -/
def U64 : Nat := 2 ^ 64

/-- Truncation to 64 bits: the implicit wrap of C++ `unsigned long` arithmetic. -/
def mask64 (x : Nat) : Nat := x % U64

/-- 64-bit wrapping addition. -/
def add64 (a b : Nat) : Nat := mask64 (a + b)

/-- 64-bit wrapping subtraction (two's complement). -/
def sub64 (a b : Nat) : Nat := mask64 (a + (U64 - b % U64))

/-- 64-bit wrapping negation (two's complement). -/
def neg64 (a : Nat) : Nat := mask64 (U64 - a % U64)

/-- Read a 64-bit pattern back as the signed (`long`) value it denotes. -/
def sInt64 (x : Nat) : Int := if x % U64 < 2 ^ 63 then (x % U64 : Int) else (x % U64 : Int) - (U64 : Int)

/-- `unZigZag` from `RLEv2.cc`: `value >> 1 ^ -(value & 1)` on `unsigned long`. -/
def unZigZag (value : Nat) : Nat := (value >>> 1) ^^^ neg64 (value &&& 1)

/-- The error kinds raised by the embedded code.  `parseError`,
`notImplementedYet`, `logicError` and `rangeError` are the exception classes
thrown by the sources.  `statsUndefined` is modelled from the spec: the spec's
error taxonomy (§7) lists a kind `StatsUndefined{field}` distinct from
`ParseError`; no code path in the sources constructs it. -/
inductive OrcErr where
  | parseError : String → OrcErr
  | notImplementedYet : String → OrcErr
  | logicError : String → OrcErr
  | rangeError : String → OrcErr
  | statsUndefined : String → OrcErr
deriving DecidableEq, Repr

/-- Whether an error is of the spec's `StatsUndefined` kind. -/
def OrcErr.isStatsUndefined : OrcErr → Bool
  | .statsUndefined _ => true
  | _ => false

/-! ## Fixed-width tables (`RLEv2.cc`, `decodeBitWidth` / `getClosestFixedBits`)

The `FixedBitSizes::FBS` enum assigns `ONE = 0`, …, `TWENTYFOUR = 23`,
`TWENTYSIX = 24`, `TWENTYEIGHT = 25`, `THIRTY = 26`, `THIRTYTWO = 27`,
`FORTY = 28`, `FORTYEIGHT = 29`, `FIFTYSIX = 30`, `SIXTYFOUR = 31`. -/

/-- `decodeBitWidth` from `RLEv2.cc`: translate an encoded 5-bit width symbol
to a bit width. -/
def decodeBitWidth (n : Nat) : Nat :=
  if n ≤ 23 then n + 1
  else if n = 24 then 26
  else if n = 25 then 28
  else if n = 26 then 30
  else if n = 27 then 32
  else if n = 28 then 40
  else if n = 29 then 48
  else if n = 30 then 56
  else 64

/-- `getClosestFixedBits` from `RLEv2.cc`: round a bit count up to the nearest
supported width. -/
def getClosestFixedBits (n : Nat) : Nat :=
  if n = 0 then 1
  else if 1 ≤ n ∧ n ≤ 24 then n
  else if 24 < n ∧ n ≤ 26 then 26
  else if 26 < n ∧ n ≤ 28 then 28
  else if 28 < n ∧ n ≤ 30 then 30
  else if 30 < n ∧ n ≤ 32 then 32
  else if 32 < n ∧ n ≤ 40 then 40
  else if 40 < n ∧ n ≤ 48 then 48
  else if 48 < n ∧ n ≤ 56 then 56
  else 64

/-- The 32 bit widths the RLE v2 format supports. -/
def supportedWidths : List Nat :=
  [1, 2, 3, 4, 5, 6, 7, 8, 9, 10, 11, 12, 13, 14, 15, 16, 17, 18, 19, 20,
   21, 22, 23, 24, 26, 28, 30, 32, 40, 48, 56, 64]

/-! ## Top-level run-header dispatch (`RLEv2.cc`, `RleDecoderV2::next`) -/

/-- The four RLE v2 sub-encodings (`EncodingType` in `RLEv2.hh`). -/
inductive EncodingType where
  | SHORT_REPEAT
  | DIRECT
  | PATCHED_BASE
  | DELTA
deriving DecidableEq, Repr

/-- The encoding dispatch of `RleDecoderV2::next`:
`static_cast<EncodingType>((firstByte >> 6) & 0x03)`, with the
switch's `default` branch (the `"unknown encoding"` `ParseError`) as `none`. -/
def decodeEncoding (firstByte : Nat) : Option EncodingType :=
  let enc := (firstByte >>> 6) &&& 0x03
  if enc = 0 then some .SHORT_REPEAT
  else if enc = 1 then some .DIRECT
  else if enc = 2 then some .PATCHED_BASE
  else if enc = 3 then some .DELTA
  else none

/-! ## Byte-level primitives (`RLEv2.cc`, `readByte` / `readVulong` / `readVslong` / `readLongBE`)

The input stream is flattened to the list of bytes it will deliver; exhausting
it models `inputStream->Next` returning false, which the source turns into
`ParseError("bad read in readByte")`. -/

/-- A byte stream. -/
abbrev Bytes := List Nat

/-- `RleDecoderV2::readByte`: consume one byte, or fail at end of stream. -/
def readByteB : Bytes → Except OrcErr (Nat × Bytes)
  | [] => .error (.parseError "bad read in readByte")
  | b :: rest => .ok (b &&& 255, rest)

/-- The loop of `RleDecoderV2::readVulong`: accumulate 7-bit groups
little-endian while the continuation bit is set. -/
def readVulongGo : Bytes → Nat → Nat → Except OrcErr (Nat × Bytes)
  | [], _, _ => .error (.parseError "bad read in readByte")
  | b :: rest, ret, offset =>
    let b := b &&& 255
    let ret := mask64 (ret ||| ((0x7f &&& b) <<< offset))
    if 0x80 ≤ b then readVulongGo rest ret (offset + 7) else .ok (ret, rest)

/-- `RleDecoderV2::readVulong`. -/
def readVulongB (bs : Bytes) : Except OrcErr (Nat × Bytes) := readVulongGo bs 0 0

/-- `RleDecoderV2::readVslong`: `readVulong` followed by zig-zag decoding. -/
def readVslongB (bs : Bytes) : Except OrcErr (Nat × Bytes) :=
  (readVulongB bs).map fun p => (unZigZag p.1, p.2)

/-- The loop of `RleDecoderV2::readLongBE`: big-endian accumulation of `bsz`
bytes (`ret |= val << (n * 8)` with `n` counting down). -/
def readLongBEGo : Nat → Bytes → Nat → Except OrcErr (Nat × Bytes)
  | 0, bs, ret => .ok (ret, bs)
  | n + 1, bs, ret =>
    match readByteB bs with
    | .error e => .error e
    | .ok (val, bs) => readLongBEGo n bs (mask64 (ret ||| (val <<< (n * 8))))

/-- `RleDecoderV2::readLongBE`. -/
def readLongBEB (bsz : Nat) (bs : Bytes) : Except OrcErr (Nat × Bytes) :=
  readLongBEGo bsz bs 0

/-! ## The bit reader (`RLEv2.cc`, `RleDecoderV2::readLongs`)

The running bit cursor is the pair `(curByte, bitsLeft)`.  The inner `while`
of `readLongs` refills `curByte` until enough bits are available; its C++
termination rests on `bitsLeft` becoming 8 after every refill, so the
embedding carries a fuel argument, called with `toRead + 1` which is shown
sufficient by the concrete evaluations and cancels in all equalities. -/

/-- One fixed-width unsigned read: the body of the `for` loop of `readLongs`
for a single (non-null) slot.  Returns `(result, curByte, bitsLeft, stream)`. -/
def readBitsGo : Nat → Nat → Nat → Nat → Nat → Bytes → Except OrcErr (Nat × Nat × Nat × Bytes)
  | 0, _, _, _, _, _ => .error (.parseError "bad read in readByte")
  | fuel + 1, result, toRead, curByte, bitsLeft, bs =>
    if bitsLeft < toRead then
      let result := mask64 ((result <<< bitsLeft) ||| (curByte &&& ((1 <<< bitsLeft) - 1)))
      match readByteB bs with
      | .error e => .error e
      | .ok (nb, bs) => readBitsGo fuel result (toRead - bitsLeft) nb 8 bs
    else
      if 0 < toRead then
        let bitsLeft := bitsLeft - toRead
        let result := mask64 ((result <<< toRead) ||| ((curByte >>> bitsLeft) &&& ((1 <<< toRead) - 1)))
        .ok (result, curByte, bitsLeft, bs)
      else
        .ok (result, curByte, bitsLeft, bs)

/-- Read one `toRead`-bit unsigned integer at the bit cursor. -/
def readBits (toRead curByte bitsLeft : Nat) (bs : Bytes) :
    Except OrcErr (Nat × Nat × Nat × Bytes) :=
  readBitsGo (toRead + 1) 0 toRead curByte bitsLeft bs

/-- The null test of the decoder loops: `notNull == nullptr || notNull[i]`.
Out-of-range accesses (undefined behaviour in C++) default to present; the
theorems never depend on that default. -/
def isPresent : Option (List Bool) → Nat → Bool
  | none, _ => true
  | some m, i => m.getD i true

/-- The loop of `RleDecoderV2::readLongs`: read `len` fixed-width integers of
`fb` bits into `data` at positions `pos, pos+1, …`, skipping null positions
(which consume no bits).  Returns `(data, ret, curByte, bitsLeft, stream)`
where `ret` counts the slots actually written. -/
def readLongsGo (fb : Nat) (mask : Option (List Bool)) :
    Nat → Nat → List Nat → Nat → Nat → Bytes → Nat →
    Except OrcErr (List Nat × Nat × Nat × Nat × Bytes)
  | 0, _, data, curByte, bitsLeft, bs, ret => .ok (data, ret, curByte, bitsLeft, bs)
  | len + 1, pos, data, curByte, bitsLeft, bs, ret =>
    if isPresent mask pos then
      match readBits fb curByte bitsLeft bs with
      | .error e => .error e
      | .ok (result, curByte, bitsLeft, bs) =>
        readLongsGo fb mask len (pos + 1) (data.set pos result) curByte bitsLeft bs (ret + 1)
    else
      readLongsGo fb mask len (pos + 1) data curByte bitsLeft bs ret

/-- `RleDecoderV2::readLongs`. -/
def readLongs (data : List Nat) (offset len fb : Nat) (mask : Option (List Bool))
    (curByte bitsLeft : Nat) (bs : Bytes) :
    Except OrcErr (List Nat × Nat × Nat × Nat × Bytes) :=
  readLongsGo fb mask len offset data curByte bitsLeft bs 0

/-! ## Decoder state (`RLEv2.hh` fields, initialised by the `RleDecoderV2`
constructor)

`runLength` and `runRead` are C++ `unsigned long`; the decoder maintains
`runRead ≤ runLength` (the `RunInv` lemmas below), under which the `Nat`
subtraction `runLength - runRead` agrees with the 64-bit unsigned wrap. -/

structure RleState where
  input : Bytes
  isSigned : Bool
  firstByte : Nat
  runLength : Nat
  runRead : Nat
  deltaBase : Nat
  byteSize : Nat
  firstValue : Nat
  prevValue : Nat
  bitSize : Nat
  bitsLeft : Nat
  curByte : Nat
  patchBitSize : Nat
  base : Nat
  curGap : Nat
  curPatch : Nat
  patchMask : Nat
  actualGap : Nat
  unpacked : List Nat
  unpackedIdx : Nat
  unpackedPatch : List Nat
  patchIdx : Nat
deriving DecidableEq, Repr

/-- The `RleDecoderV2` constructor: every numeric field zero, empty buffers. -/
def initialRleState (bs : Bytes) (signed : Bool) : RleState :=
  { input := bs, isSigned := signed, firstByte := 0, runLength := 0, runRead := 0,
    deltaBase := 0, byteSize := 0, firstValue := 0, prevValue := 0, bitSize := 0,
    bitsLeft := 0, curByte := 0, patchBitSize := 0, base := 0, curGap := 0,
    curPatch := 0, patchMask := 0, actualGap := 0, unpacked := [], unpackedIdx := 0,
    unpackedPatch := [], patchIdx := 0 }

/-! ## SHORT_REPEAT (`RleDecoderV2::nextShortRepeats`) -/

/-- The emission loop of `nextShortRepeats`: write `firstValue` to each
present slot, counting written slots into `runRead`. -/
def shortRepeatEmit (firstValue : Nat) (mask : Option (List Bool)) :
    Nat → Nat → List Nat → Nat → List Nat × Nat
  | 0, _, data, runRead => (data, runRead)
  | n + 1, pos, data, runRead =>
    if isPresent mask pos then
      shortRepeatEmit firstValue mask n (pos + 1) (data.set pos firstValue) (runRead + 1)
    else
      shortRepeatEmit firstValue mask n (pos + 1) data runRead

/-- The header block of `nextShortRepeats` (run entered with
`runRead == runLength`). -/
def shortRepeatParseHeader (s : RleState) : Except OrcErr RleState :=
  let byteSize := ((s.firstByte >>> 3) &&& 0x07) + 1
  let runLength := (s.firstByte &&& 0x07) + 3
  match readLongBEB byteSize s.input with
  | .error e => .error e
  | .ok (v, input) =>
    let firstValue := if s.isSigned then unZigZag v else v
    .ok { s with byteSize := byteSize, runLength := runLength, runRead := 0,
                 firstValue := firstValue, input := input }

/-- `RleDecoderV2::nextShortRepeats`.  Returns `(nRead, state, data)`. -/
def nextShortRepeats (s : RleState) (data : List Nat) (offset numValues : Nat)
    (mask : Option (List Bool)) : Except OrcErr (Nat × RleState × List Nat) :=
  match (if s.runRead = s.runLength then shortRepeatParseHeader s else .ok s) with
  | .error e => .error e
  | .ok s =>
    let nRead := min (s.runLength - s.runRead) numValues
    let (data, runRead) := shortRepeatEmit s.firstValue mask nRead offset data s.runRead
    .ok (nRead, { s with runRead := runRead }, data)

/-! ## DIRECT (`RleDecoderV2::nextDirect`) -/

/-- The post-`readLongs` loop of `nextDirect` for signed streams: zig-zag
decode each present slot of the window in place. -/
def unZigZagRange (mask : Option (List Bool)) : Nat → Nat → List Nat → List Nat
  | 0, _, data => data
  | n + 1, pos, data =>
    if isPresent mask pos then
      unZigZagRange mask n (pos + 1) (data.set pos (unZigZag (data.getD pos 0)))
    else
      unZigZagRange mask n (pos + 1) data

/-- The header block of `nextDirect`. -/
def directParseHeader (s : RleState) : Except OrcErr RleState :=
  let fbo := (s.firstByte >>> 1) &&& 0x1f
  let bitSize := decodeBitWidth fbo
  match readByteB s.input with
  | .error e => .error e
  | .ok (rb, input) =>
    let runLength := (((s.firstByte &&& 0x01) <<< 8) ||| rb) + 1
    .ok { s with bitSize := bitSize, bitsLeft := 0, curByte := 0,
                 runLength := runLength, runRead := 0, input := input }

/-- `RleDecoderV2::nextDirect`.  Returns `(nRead, state, data)`. -/
def nextDirect (s : RleState) (data : List Nat) (offset numValues : Nat)
    (mask : Option (List Bool)) : Except OrcErr (Nat × RleState × List Nat) :=
  match (if s.runRead = s.runLength then directParseHeader s else .ok s) with
  | .error e => .error e
  | .ok s =>
    let nRead := min (s.runLength - s.runRead) numValues
    match readLongs data offset nRead s.bitSize mask s.curByte s.bitsLeft s.input with
    | .error e => .error e
    | .ok (data, ret, curByte, bitsLeft, input) =>
      let s := { s with runRead := s.runRead + ret, curByte := curByte,
                        bitsLeft := bitsLeft, input := input }
      let data := if s.isSigned then unZigZagRange mask nRead offset data else data
      .ok (nRead, s, data)

/-! ## PATCHED_BASE (`RleDecoderV2::nextPatched`) -/

/-- Modelled from the spec: `RleDecoderV2::adjustGapAndPatch` is declared in
`RLEv2.hh`, which is not among the provided sources; only its call sites in
`RLEv2.cc` are.  Per the spec (§4.E, PATCHED_BASE): a patch-list entry is
split into a gap field (the entry shifted right by `patchBitSize`) and a
patch value (the entry masked with `patchMask`); entries whose gap field is
zero mean "continue accumulating the gap"; advance to the next non-zero-gap
patch before applying.  Returns `(curGap, curPatch, gapAccumulator,
patchIdx)`. -/
def adjustGapAndPatchGo (patchBitSize patchMask : Nat) :
    List Nat → Nat → Nat → Nat × Nat × Nat × Nat
  | [], idx, acc => (0, 0, acc, idx)
  | e :: rest, idx, acc =>
    let g := e >>> patchBitSize
    let p := e &&& patchMask
    if g = 0 then adjustGapAndPatchGo patchBitSize patchMask rest (idx + 1) acc
    else (g, p, add64 acc g, idx)

/-- Modelled from the spec: see `adjustGapAndPatchGo`. -/
def adjustGapAndPatch (patchBitSize patchMask : Nat) (unpackedPatch : List Nat)
    (patchIdx : Nat) : Nat × Nat × Nat × Nat :=
  adjustGapAndPatchGo patchBitSize patchMask (unpackedPatch.drop patchIdx) patchIdx 0

/-- The header block of `nextPatched`: parse the four header bytes, the base
value (top-bit sign representation), the dense `unpacked` buffer and the
patch list. -/
def patchedParseHeader (s : RleState) : Except OrcErr RleState :=
  let fbo := (s.firstByte >>> 1) &&& 0x1f
  let bitSize := decodeBitWidth fbo
  match readByteB s.input with
  | .error e => .error e
  | .ok (rb, input) =>
    let runLength := (((s.firstByte &&& 0x01) <<< 8) ||| rb) + 1
    match readByteB input with
    | .error e => .error e
    | .ok (thirdByte, input) =>
      let byteSize := ((thirdByte >>> 5) &&& 0x07) + 1
      let patchBitSize := decodeBitWidth (thirdByte &&& 0x1f)
      match readByteB input with
      | .error e => .error e
      | .ok (fourthByte, input) =>
        let pgw := ((fourthByte >>> 5) &&& 0x07) + 1
        let pl := fourthByte &&& 0x1f
        match readLongBEB byteSize input with
        | .error e => .error e
        | .ok (baseRaw, input) =>
          let signMask := 1 <<< (byteSize * 8 - 1)
          let base :=
            if baseRaw &&& signMask ≠ 0 then neg64 (baseRaw &&& ((U64 - 1) ^^^ signMask))
            else baseRaw
          match readLongs (List.replicate runLength 0) 0 runLength bitSize none
                  s.curByte s.bitsLeft input with
          | .error e => .error e
          | .ok (unpacked, _, curByte, _, input) =>
            -- any remaining bits are thrown out: bitsLeft := 0
            if 64 < patchBitSize + pgw then
              .error (.parseError "Corrupt PATCHED_BASE encoded data!")
            else
              let cfb := getClosestFixedBits (patchBitSize + pgw)
              match readLongs (List.replicate pl 0) 0 pl cfb none curByte 0 input with
              | .error e => .error e
              | .ok (unpackedPatch, _, curByte, _, input) =>
                let patchMask := ((1 <<< patchBitSize) - 1) % U64
                let (curGap, curPatch, actualGap, patchIdx) :=
                  adjustGapAndPatch patchBitSize patchMask unpackedPatch 0
                .ok { s with bitSize := bitSize, runLength := runLength, runRead := 0,
                             byteSize := byteSize, patchBitSize := patchBitSize,
                             base := base, unpacked := unpacked, unpackedIdx := 0,
                             unpackedPatch := unpackedPatch, patchIdx := patchIdx,
                             patchMask := patchMask, curGap := curGap,
                             curPatch := curPatch, actualGap := actualGap,
                             curByte := curByte, bitsLeft := 0, input := input }

/-- The emission loop of `nextPatched`: emit `base + unpacked[unpackedIdx]`,
or the patched value at indices equal to `actualGap`, advancing the patch
cursor via `adjustGapAndPatch`. -/
def patchedEmit (mask : Option (List Bool)) :
    Nat → Nat → RleState → List Nat → RleState × List Nat
  | 0, _, s, data => (s, data)
  | n + 1, pos, s, data =>
    if isPresent mask pos then
      if s.unpackedIdx ≠ s.actualGap then
        let data := data.set pos (add64 s.base (s.unpacked.getD s.unpackedIdx 0))
        patchedEmit mask n (pos + 1)
          { s with runRead := s.runRead + 1, unpackedIdx := s.unpackedIdx + 1 } data
      else
        let patchedVal :=
          mask64 ((s.unpacked.getD s.unpackedIdx 0) ||| mask64 (s.curPatch <<< s.bitSize))
        let data := data.set pos (add64 s.base patchedVal)
        let s := { s with patchIdx := s.patchIdx + 1 }
        let s :=
          if s.patchIdx < s.unpackedPatch.length then
            let (curGap, curPatch, actualGap, patchIdx) :=
              adjustGapAndPatch s.patchBitSize s.patchMask s.unpackedPatch s.patchIdx
            { s with curGap := curGap, curPatch := curPatch,
                     actualGap := add64 actualGap s.unpackedIdx, patchIdx := patchIdx }
          else s
        patchedEmit mask n (pos + 1)
          { s with runRead := s.runRead + 1, unpackedIdx := s.unpackedIdx + 1 } data
    else
      patchedEmit mask n (pos + 1) s data

/-- `RleDecoderV2::nextPatched`.  Returns `(nRead, state, data)`. -/
def nextPatched (s : RleState) (data : List Nat) (offset numValues : Nat)
    (mask : Option (List Bool)) : Except OrcErr (Nat × RleState × List Nat) :=
  match (if s.runRead = s.runLength then patchedParseHeader s else .ok s) with
  | .error e => .error e
  | .ok s =>
    let nRead := min (s.runLength - s.runRead) numValues
    let (s, data) := patchedEmit mask nRead offset s data
    .ok (nRead, s, data)

/-! ## DELTA (`RleDecoderV2::nextDelta`) -/

/-- The header block of `nextDelta`.  Note the source updates `bitSize` only
when the width field `fbo` is non-zero, so a zero field retains the `bitSize`
left over from a previous run. -/
def deltaParseHeader (s : RleState) : Except OrcErr RleState :=
  let fbo := (s.firstByte >>> 1) &&& 0x1f
  let bitSize := if fbo ≠ 0 then decodeBitWidth fbo else s.bitSize
  match readByteB s.input with
  | .error e => .error e
  | .ok (rb, input) =>
    let runLength := (((s.firstByte &&& 0x01) <<< 8) ||| rb) + 1
    match (if s.isSigned then readVslongB input else readVulongB input) with
    | .error e => .error e
    | .ok (firstValue, input) =>
      match readVslongB input with
      | .error e => .error e
      | .ok (deltaBase, input) =>
        .ok { s with bitSize := bitSize, runLength := runLength, runRead := 0,
                     firstValue := firstValue, prevValue := firstValue,
                     deltaBase := deltaBase, input := input }

/-- The null-skipping scans of `nextDelta`: the first position in
`[pos, pos+n)` that is present, or `pos+n`. -/
def scanPresent (mask : Option (List Bool)) : Nat → Nat → Nat
  | pos, 0 => pos
  | pos, n + 1 => if isPresent mask pos then pos else scanPresent mask (pos + 1) n

/-- The fixed-delta loop of `nextDelta` (`bitSize == 0`): each present slot
receives `prevValue + deltaBase`. -/
def deltaFixedEmit (mask : Option (List Bool)) :
    Nat → Nat → RleState → List Nat → RleState × List Nat
  | 0, _, s, data => (s, data)
  | n + 1, pos, s, data =>
    if isPresent mask pos then
      let v := add64 s.prevValue s.deltaBase
      deltaFixedEmit mask n (pos + 1)
        { s with prevValue := v, runRead := s.runRead + 1 } (data.set pos v)
    else
      deltaFixedEmit mask n (pos + 1) s data

/-- The accumulation loop of `nextDelta` (`bitSize != 0`): the unpacked
deltas already written to `data` are added to (or, for a negative
`deltaBase`, subtracted from) the running previous value. -/
def deltaAccumEmit (negative : Bool) (mask : Option (List Bool)) :
    Nat → Nat → RleState → List Nat → RleState × List Nat
  | 0, _, s, data => (s, data)
  | n + 1, pos, s, data =>
    if isPresent mask pos then
      let d := data.getD pos 0
      let v := if negative then sub64 s.prevValue d else add64 s.prevValue d
      deltaAccumEmit negative mask n (pos + 1) { s with prevValue := v } (data.set pos v)
    else
      deltaAccumEmit negative mask n (pos + 1) s data

/-- The tail of `nextDelta` for a non-zero `bitSize`: scan to the next
present slot, possibly emit the second value `firstValue + deltaBase`, unpack
the remaining deltas with `readLongs` and accumulate them. -/
def deltaUnpackTail (s : RleState) (data : List Nat) (pos endPos : Nat)
    (mask : Option (List Bool)) : Except OrcErr (RleState × List Nat) :=
  let pos2 := scanPresent mask pos (endPos - pos)
  let t : RleState × List Nat × Nat :=
    if s.runRead < 2 ∧ pos2 < endPos then
      let v := add64 s.firstValue s.deltaBase
      ({ s with prevValue := v, runRead := s.runRead + 1 }, data.set pos2 v, pos2 + 1)
    else (s, data, pos2)
  match t with
  | (s, data, pos3) =>
    let remaining := endPos - pos3
    match readLongs data pos3 remaining s.bitSize mask s.curByte s.bitsLeft s.input with
    | .error e => .error e
    | .ok (data, ret, curByte, bitsLeft, input) =>
      let s := { s with runRead := s.runRead + ret, curByte := curByte,
                        bitsLeft := bitsLeft, input := input }
      let r := deltaAccumEmit (decide (sInt64 s.deltaBase < 0)) mask remaining pos3 s data
      .ok (r.1, r.2)

/-- `RleDecoderV2::nextDelta`.  Returns `(nRead, state, data)`. -/
def nextDelta (s : RleState) (data : List Nat) (offset numValues : Nat)
    (mask : Option (List Bool)) : Except OrcErr (Nat × RleState × List Nat) :=
  match (if s.runRead = s.runLength then deltaParseHeader s else .ok s) with
  | .error e => .error e
  | .ok s =>
    let nRead := min (s.runLength - s.runRead) numValues
    let endPos := offset + nRead
    let pos := scanPresent mask offset nRead
    let (s, data, pos) :=
      if s.runRead = 0 ∧ pos < endPos then
        ({ s with runRead := 1 }, data.set pos s.firstValue, pos + 1)
      else (s, data, pos)
    if s.bitSize = 0 then
      let (s, data) := deltaFixedEmit mask (endPos - pos) pos s data
      .ok (nRead, s, data)
    else
      match deltaUnpackTail s data pos endPos mask with
      | .error e => .error e
      | .ok (s, data) => .ok (nRead, s, data)

/-! ## The decode loop (`RleDecoderV2::next`) and `skip` -/

/-- The `while (nRead < numValues)` loop of `RleDecoderV2::next`.  Each
iteration reads a fresh header byte when the current run is exhausted and
dispatches on `decodeEncoding`.  Every iteration consumes at least one slot
(each sub-encoding's run has `runLength ≥ 1` and `runRead` starts at 0 after
a header), so `numValues` units of fuel suffice; see `nextLoopF_fuel`. -/
def nextLoopF (mask : Option (List Bool)) (numValues : Nat) :
    Nat → RleState → List Nat → Nat → Except OrcErr (RleState × List Nat)
  | 0, s, data, nRead =>
    if nRead < numValues then .error (.parseError "decoder loop fuel exhausted")
    else .ok (s, data)
  | fuel + 1, s, data, nRead =>
    if nRead < numValues then
      match ((if s.runRead = s.runLength then
                match readByteB s.input with
                | .error e => .error e
                | .ok (fb, input) => .ok { s with firstByte := fb, input := input }
              else .ok s) : Except OrcErr RleState) with
      | .error e => .error e
      | .ok s =>
        let offset := nRead
        let length := numValues - nRead
        match (match decodeEncoding s.firstByte with
               | some .SHORT_REPEAT => nextShortRepeats s data offset length mask
               | some .DIRECT => nextDirect s data offset length mask
               | some .PATCHED_BASE => nextPatched s data offset length mask
               | some .DELTA => nextDelta s data offset length mask
               | none => .error (.parseError "unknown encoding")) with
        | .error e => .error e
        | .ok (n, s, data) => nextLoopF mask numValues fuel s data (nRead + n)
    else .ok (s, data)

/-- `RleDecoderV2::next(data, numValues, notNull)`: fill `numValues` slots of
`data` starting at index 0, honouring the null mask.  Returns the final
decoder state and buffer. -/
def rleNext (s : RleState) (data : List Nat) (numValues : Nat)
    (mask : Option (List Bool)) : Except OrcErr (RleState × List Nat) :=
  nextLoopF mask numValues numValues s data 0

/-- The `while (numValues)` loop of `RleDecoderV2::skip`: decode
`min(64, numValues)` values at a time into the 64-entry `dummy` buffer. -/
def skipGo : Nat → RleState → Nat → Except OrcErr RleState
  | 0, s, numValues =>
    if numValues = 0 then .ok s else .error (.parseError "decoder loop fuel exhausted")
  | fuel + 1, s, numValues =>
    if numValues = 0 then .ok s
    else
      let nRead := min 64 numValues
      match rleNext s (List.replicate 64 0) nRead none with
      | .error e => .error e
      | .ok (s, _) => skipGo fuel s (numValues - nRead)

/-- `RleDecoderV2::skip(numValues)`.  Each loop iteration consumes
`min(64, numValues) ≥ 1` values, so `numValues` units of fuel suffice. -/
def rleSkip (s : RleState) (numValues : Nat) : Except OrcErr RleState :=
  skipGo numValues s numValues

/-- The spec-side reading of `skip` (§4.E Skip: "`skip(n)` is implemented by
decoding into a throwaway buffer"): decode the `n` values in one call into a
throwaway buffer of the right size and discard them, keeping only the decoder
state. -/
def skipByDecodingAndDiscarding (s : RleState) (numValues : Nat) : Except OrcErr RleState :=
  (rleNext s (List.replicate numValues 0) numValues none).map (·.1)

/-! ## Magic validation (`Reader.cc`, `ReaderImpl::ensureOrcFooter` /
`ReaderImpl::readPostscript`)

`buffer` is the tail read of `readSize` bytes (so `buffer = file.drop
(file.length - buffer.length)` for an in-range read), and the fallback
`stream->read(frontBuffer, 0, 3)` reads the head of the file. -/

/-- The bytes of the magic string `"ORC"`. -/
def magicBytes : Bytes := [79, 82, 67]

/-- `len` bytes of `l` starting at offset `off`. -/
def sliceBytes (l : Bytes) (off len : Nat) : Bytes := (l.drop off).take len

/-- `ReaderImpl::ensureOrcFooter(buffer, readSize)`: require `postscriptLength
≥ MAGIC.length() + 1`; compare the three bytes at
`buffer + readSize - 1 - postscriptLength` with the magic; on mismatch read
and compare the first three bytes of the file. -/
def ensureOrcFooter (file buffer : Bytes) (postscriptLength : Nat) : Except OrcErr Unit :=
  if postscriptLength < 3 + 1 then .error (.parseError "Invalid postscript length")
  else if sliceBytes buffer (buffer.length - 1 - postscriptLength) 3 = magicBytes then .ok ()
  else if sliceBytes file 0 3 = magicBytes then .ok ()
  else .error (.parseError "Not an ORC file")

/-- The prefix of `ReaderImpl::readPostscript`: take the postscript length
from the last byte of the tail read (`buffer[readSize - 1] & 0xff`) and
validate the magic. -/
def readPostscriptMagic (file buffer : Bytes) : Except OrcErr Unit :=
  let postscriptLength := buffer.getD (buffer.length - 1) 0 &&& 0xff
  ensureOrcFooter file buffer postscriptLength

/-! ## Batch-level reading (`Reader.cc`, `ReaderImpl::next`) -/

/-- The part of a `ColumnVectorBatch` that `ReaderImpl::next` touches. -/
structure RowBatch where
  capacity : Nat
  numElements : Nat
deriving DecidableEq, Repr

/-- The `ReaderImpl` fields that `ReaderImpl::next` reads and writes. -/
structure ReaderState where
  stripeRows : List Nat
  firstRowOfStripe : List Nat
  currentStripe : Nat
  lastStripe : Nat
  currentRowInStripe : Nat
  rowsInCurrentStripe : Nat
  previousRow : Nat
deriving DecidableEq, Repr

/-- `ReaderImpl::next(data)`.  The fallible collaborators of the source are
abstracted as parameters: `stripeFooter` is the stripe-footer parse performed
by `startNextStripe` (which throws on a corrupt footer), and `rootNext` is
the recursive `reader->next(data, rowsToRead, 0)` decode (which throws on
corrupt streams).  The caller-owned batch is threaded outside the `Except`
because a C++ exception leaves already-performed mutations in place.
`rowsInCurrentStripe - currentRowInStripe` is C++ `uint64_t` arithmetic; the
reader maintains `currentRowInStripe ≤ rowsInCurrentStripe`, under which the
`Nat` subtraction agrees with the 64-bit wrap. -/
def readerNext (stripeFooter : Nat → Except OrcErr Unit)
    (rootNext : Nat → Except OrcErr Unit) (s : ReaderState) (b : RowBatch) :
    Except OrcErr (Bool × ReaderState) × RowBatch :=
  if s.lastStripe < s.currentStripe then
    let b := { b with numElements := 0 }
    let s := { s with previousRow :=
                 s.firstRowOfStripe.getD s.lastStripe 0 + s.stripeRows.getD s.lastStripe 0 }
    (.ok (false, s), b)
  else
    match (if s.currentRowInStripe = 0 then stripeFooter s.currentStripe else .ok ()) with
    | .error e => (.error e, b)
    | .ok _ =>
      let s := if s.currentRowInStripe = 0
               then { s with rowsInCurrentStripe := s.stripeRows.getD s.currentStripe 0 }
               else s
      let rowsToRead := min b.capacity (s.rowsInCurrentStripe - s.currentRowInStripe)
      let b := { b with numElements := rowsToRead }
      match rootNext rowsToRead with
      | .error e => (.error e, b)
      | .ok _ =>
        let s := { s with previousRow :=
                     s.firstRowOfStripe.getD s.currentStripe 0 + s.currentRowInStripe }
        let s := { s with currentRowInStripe := s.currentRowInStripe + rowsToRead }
        let s := if s.rowsInCurrentStripe ≤ s.currentRowInStripe
                 then { s with currentStripe := s.currentStripe + 1, currentRowInStripe := 0 }
                 else s
        (.ok (decide (rowsToRead ≠ 0), s), b)

/-! ## Typed statistics accessors (`Reader.cc`,
`IntegerColumnStatisticsImpl`) -/

/-- The fields of a `proto::ColumnStatistics` message with integer
statistics that the view consumes. -/
structure IntegerStatsMsg where
  numberOfValues : Nat
  hasIntStatistics : Bool
  hasMin : Bool
  hasMax : Bool
  hasSum : Bool
  minimum : Int
  maximum : Int
  sum : Int
deriving DecidableEq, Repr

/-- The state of an `IntegerColumnStatisticsImpl` view. -/
structure IntegerColumnStatisticsImpl where
  valueCount : Nat
  hasMinimum : Bool
  hasMaximum : Bool
  hasSum : Bool
  minimum : Int
  maximum : Int
  sum : Int
deriving DecidableEq, Repr

/-- The `IntegerColumnStatisticsImpl` constructor: absent `intstatistics`
clears all `has` flags (the value members stay uninitialised in C++ and are
never exposed; zero here). -/
def IntegerColumnStatisticsImpl.ofProto (pb : IntegerStatsMsg) : IntegerColumnStatisticsImpl :=
  if pb.hasIntStatistics then
    { valueCount := pb.numberOfValues, hasMinimum := pb.hasMin, hasMaximum := pb.hasMax,
      hasSum := pb.hasSum, minimum := pb.minimum, maximum := pb.maximum, sum := pb.sum }
  else
    { valueCount := pb.numberOfValues, hasMinimum := false, hasMaximum := false,
      hasSum := false, minimum := 0, maximum := 0, sum := 0 }

/-- `IntegerColumnStatisticsImpl::getMinimum`. -/
def IntegerColumnStatisticsImpl.getMinimum (s : IntegerColumnStatisticsImpl) :
    Except OrcErr Int :=
  if s.hasMinimum then .ok s.minimum else .error (.parseError "Minimum is not defined.")

/-- `IntegerColumnStatisticsImpl::getMaximum`. -/
def IntegerColumnStatisticsImpl.getMaximum (s : IntegerColumnStatisticsImpl) :
    Except OrcErr Int :=
  if s.hasMaximum then .ok s.maximum else .error (.parseError "Maximum is not defined.")

/-- `IntegerColumnStatisticsImpl::getSum`. -/
def IntegerColumnStatisticsImpl.getSum (s : IntegerColumnStatisticsImpl) :
    Except OrcErr Int :=
  if s.hasSum then .ok s.sum else .error (.parseError "Sum is not defined.")

/-! ## Column selection (`Reader.cc`, `ReaderImpl::selectTypeParent` /
`selectTypeChildren` and the constructor)

The flat `footer.types` table is a list of subtype-id lists.  The two
selection walks recurse through the table; their C++ termination rests on the
table being a well-formed tree (ids assigned pre-order), so the embeddings
carry fuel shown sufficient under that well-formedness. -/

/-- The subtype-id list of type node `p` in the flat type table. -/
def subtypesOf (types : List (List Nat)) (p : Nat) : List Nat := types.getD p []

/-- `p` is recorded as a parent of `c` in the type table. -/
def isParent (types : List (List Nat)) (p c : Nat) : Prop := c ∈ subtypesOf types p

/-- `a` is a strict ancestor of `c` along the parent edges of the table. -/
inductive IsAncestor (types : List (List Nat)) : Nat → Nat → Prop where
  | parent {p c : Nat} : isParent types p c → IsAncestor types p c
  | step {p q c : Nat} : isParent types p q → IsAncestor types q c → IsAncestor types p c

instance decIsParent (types : List (List Nat)) (p c : Nat) : Decidable (isParent types p c) :=
  inferInstanceAs (Decidable (c ∈ subtypesOf types p))

/-- Well-formedness of the type table (guaranteed by `Type::assignIds`'s
pre-order numbering): every child id is strictly greater than its parent's
and in range. -/
def ChildrenInRange (types : List (List Nat)) : Prop :=
  ∀ p, p < types.length → ∀ c ∈ subtypesOf types p, p < c ∧ c < types.length

/-- Tree-shape of the type table: a column has at most one parent. -/
def UniqueParent (types : List (List Nat)) : Prop :=
  ∀ p₁, p₁ < types.length → ∀ p₂, p₂ < types.length →
    ∀ c ∈ subtypesOf types p₁, c ∈ subtypesOf types p₂ → p₁ = p₂

instance decChildrenInRange (types : List (List Nat)) : Decidable (ChildrenInRange types) :=
  inferInstanceAs
    (Decidable (∀ p, p < types.length → ∀ c ∈ subtypesOf types p, p < c ∧ c < types.length))

instance decUniqueParent (types : List (List Nat)) : Decidable (UniqueParent types) :=
  inferInstanceAs
    (Decidable (∀ p₁, p₁ < types.length → ∀ p₂, p₂ < types.length →
      ∀ c ∈ subtypesOf types p₁, c ∈ subtypesOf types p₂ → p₁ = p₂))

/-- Pointwise growth of a selection vector. -/
def SelLe (s₁ s₂ : List Bool) : Prop :=
  ∀ i, s₁.getD i false = true → s₂.getD i false = true

/-- Every marked column has all its recorded parents marked. -/
def ParentClosed (types : List (List Nat)) (sel : List Bool) : Prop :=
  ∀ d q, sel.getD d false = true → isParent types q d → sel.getD q false = true

/-- Precondition for `selectTypeParentF`: every marked column has each of its
parents either marked or equal to a parent of the column being walked. -/
def QInv (types : List (List Nat)) (sel : List Bool) (c : Nat) : Prop :=
  ∀ d q, sel.getD d false = true → isParent types q d →
    (sel.getD q false = true ∨ isParent types q c)

/-- The scan of `ReaderImpl::selectTypeParent`: the first `parent < columnId`
whose subtype list contains `columnId` and which is not yet selected. -/
def findUnselParent (types : List (List Nat)) (sel : List Bool) (columnId : Nat) : Option Nat :=
  (List.range columnId).find? fun p =>
    decide (columnId ∈ subtypesOf types p) && !sel.getD p false

/-- `ReaderImpl::selectTypeParent`: mark the first unselected parent and
recurse from it.  The recursion descends to a strictly smaller column id, so
`columnId + 1` units of fuel suffice. -/
def selectTypeParentF (types : List (List Nat)) : Nat → Nat → List Bool → List Bool
  | 0, _, sel => sel
  | fuel + 1, columnId, sel =>
    match findUnselParent types sel columnId with
    | none => sel
    | some p => selectTypeParentF types fuel p (sel.set p true)

/-- `ReaderImpl::selectTypeParent`. -/
def selectTypeParent (types : List (List Nat)) (columnId : Nat) (sel : List Bool) : List Bool :=
  selectTypeParentF types (columnId + 1) columnId sel

/-- `ReaderImpl::selectTypeChildren`: if not yet selected, mark the column
and recurse into all its subtypes.  Under `ChildrenInRange` the recursion
descends along strictly increasing ids below `types.length`, so
`types.length + 1` units of fuel suffice. -/
def selectTypeChildrenF (types : List (List Nat)) : Nat → Nat → List Bool → List Bool
  | 0, _, sel => sel
  | fuel + 1, columnId, sel =>
    if sel.getD columnId false then sel
    else
      (subtypesOf types columnId).foldl
        (fun acc c => selectTypeChildrenF types fuel c acc) (sel.set columnId true)

/-- `ReaderImpl::selectTypeChildren`. -/
def selectTypeChildren (types : List (List Nat)) (columnId : Nat) (sel : List Bool) : List Bool :=
  selectTypeChildrenF types (types.length + 1) columnId sel

/-- The column-selection block of the `ReaderImpl` constructor:
`selectedColumns.assign(footer.types_size(), false)`, then for each included
column id within the bound (`*columnId <= schema->getSubtypeCount()`, the
root's direct-child count), `selectTypeParent` followed by
`selectTypeChildren`. -/
def selectColumns (types : List (List Nat)) (included : List Nat) : List Bool :=
  included.foldl
    (fun sel c =>
      if c ≤ (subtypesOf types 0).length then
        selectTypeChildren types c (selectTypeParent types c sel)
      else sel)
    (List.replicate types.length false)

/-! ## Proof-layer reference semantics for the RLE v2 decoder

These definitions are not part of the embedding; they give a buffer-free,
state-only description of one decode step, against which the decoder
functions above are proved equal.  This is what makes `skip`'s chunked
decoding comparable with a single decode. -/

/-- Run `f` up to `n` times through `Except`. -/
def iterateE (f : RleState → Except OrcErr RleState) : Nat → RleState → Except OrcErr RleState
  | 0, s => .ok s
  | n + 1, s =>
    match f s with
    | .error e => .error e
    | .ok s => iterateE f n s

/-- One SHORT_REPEAT value at state level: count it. -/
def srStepState (s : RleState) : Except OrcErr RleState :=
  .ok { s with runRead := s.runRead + 1 }

/-- One DIRECT value at state level: consume `bitSize` bits, count it. -/
def directStepState (s : RleState) : Except OrcErr RleState :=
  match readBits s.bitSize s.curByte s.bitsLeft s.input with
  | .error e => .error e
  | .ok (_, curByte, bitsLeft, input) =>
    .ok { s with runRead := s.runRead + 1, curByte := curByte,
                 bitsLeft := bitsLeft, input := input }

/-- One PATCHED_BASE value at state level: advance the unpacked cursor and,
at patch positions, the patch cursor. -/
def patchedStepState (s : RleState) : RleState :=
  if s.unpackedIdx ≠ s.actualGap then
    { s with runRead := s.runRead + 1, unpackedIdx := s.unpackedIdx + 1 }
  else
    let s := { s with patchIdx := s.patchIdx + 1 }
    let s :=
      if s.patchIdx < s.unpackedPatch.length then
        let (curGap, curPatch, actualGap, patchIdx) :=
          adjustGapAndPatch s.patchBitSize s.patchMask s.unpackedPatch s.patchIdx
        { s with curGap := curGap, curPatch := curPatch,
                 actualGap := add64 actualGap s.unpackedIdx, patchIdx := patchIdx }
      else s
    { s with runRead := s.runRead + 1, unpackedIdx := s.unpackedIdx + 1 }

/-- One DELTA value at state level: the first value is free, the second adds
`deltaBase` (directly for a zero `bitSize`), later values consume one
fixed-width delta each. -/
def deltaStepState (s : RleState) : Except OrcErr RleState :=
  if s.runRead = 0 then .ok { s with runRead := 1 }
  else if s.bitSize = 0 then
    .ok { s with prevValue := add64 s.prevValue s.deltaBase, runRead := s.runRead + 1 }
  else if s.runRead < 2 then
    .ok { s with prevValue := add64 s.firstValue s.deltaBase, runRead := s.runRead + 1 }
  else
    match readBits s.bitSize s.curByte s.bitsLeft s.input with
    | .error e => .error e
    | .ok (d, curByte, bitsLeft, input) =>
      let v := if decide (sInt64 s.deltaBase < 0) then sub64 s.prevValue d
               else add64 s.prevValue d
      .ok { s with prevValue := v, runRead := s.runRead + 1, curByte := curByte,
                   bitsLeft := bitsLeft, input := input }

/-- The state-level step of one encoding. -/
def stepStateOf : EncodingType → RleState → Except OrcErr RleState
  | .SHORT_REPEAT => srStepState
  | .DIRECT => directStepState
  | .PATCHED_BASE => fun s => .ok (patchedStepState s)
  | .DELTA => deltaStepState

/-- The header parse of one encoding. -/
def parseHeaderOf : EncodingType → RleState → Except OrcErr RleState
  | .SHORT_REPEAT => shortRepeatParseHeader
  | .DIRECT => directParseHeader
  | .PATCHED_BASE => patchedParseHeader
  | .DELTA => deltaParseHeader

/-- State-level version of one iteration of the `next` loop body for a given
encoding: parse the header if the run is exhausted, then emit
`min(runLength - runRead, len)` values.  Returns `(consumed, state)`. -/
def chunkStateOf (enc : EncodingType) (s : RleState) (len : Nat) :
    Except OrcErr (Nat × RleState) :=
  match (if s.runRead = s.runLength then parseHeaderOf enc s else .ok s) with
  | .error e => .error e
  | .ok s =>
    let n := min (s.runLength - s.runRead) len
    match iterateE (stepStateOf enc) n s with
    | .error e => .error e
    | .ok s => .ok (n, s)

/-- State-level version of the whole `next` loop: decode and discard `rem`
values. -/
def runStateGo : Nat → RleState → Nat → Except OrcErr RleState
  | 0, s, rem =>
    if 0 < rem then .error (.parseError "decoder loop fuel exhausted") else .ok s
  | fuel + 1, s, rem =>
    if 0 < rem then
      match ((if s.runRead = s.runLength then
                match readByteB s.input with
                | .error e => .error e
                | .ok (fb, input) => .ok { s with firstByte := fb, input := input }
              else .ok s) : Except OrcErr RleState) with
      | .error e => .error e
      | .ok s =>
        match (match decodeEncoding s.firstByte with
               | some enc => chunkStateOf enc s rem
               | none => .error (.parseError "unknown encoding")) with
        | .error e => .error e
        | .ok (n, s) => runStateGo fuel s (rem - n)
    else .ok s

/-- The values delivered by `n` consecutive fixed-width reads of `fb` bits. -/
def readValuesGo (fb : Nat) : Nat → Nat → Nat → Bytes → Except OrcErr (List Nat × Nat × Nat × Bytes)
  | 0, curByte, bitsLeft, bs => .ok ([], curByte, bitsLeft, bs)
  | n + 1, curByte, bitsLeft, bs =>
    match readBits fb curByte bitsLeft bs with
    | .error e => .error e
    | .ok (v, curByte, bitsLeft, bs) =>
      match readValuesGo fb n curByte bitsLeft bs with
      | .error e => .error e
      | .ok (vs, curByte, bitsLeft, bs) => .ok (v :: vs, curByte, bitsLeft, bs)

/-- Write `vs` into `data` at consecutive positions starting at `i`. -/
def writeFrom : List Nat → Nat → List Nat → List Nat
  | data, _, [] => data
  | data, i, v :: vs => writeFrom (data.set i v) (i + 1) vs

/-- The positions of `[pos, pos+n)` that the mask marks present. -/
def presentPositions (mask : Option (List Bool)) : Nat → Nat → List Nat
  | _, 0 => []
  | pos, n + 1 =>
    if isPresent mask pos then pos :: presentPositions mask (pos + 1) n
    else presentPositions mask (pos + 1) n

/-- How many of the positions `[pos, pos+n)` the mask marks present. -/
def countPresent (mask : Option (List Bool)) (pos n : Nat) : Nat :=
  (presentPositions mask pos n).length

/-- Write the values `vs` into `data` at the positions `ps`, pairwise. -/
def writeSeq : List Nat → List Nat → List Nat → List Nat
  | data, p :: ps, v :: vs => writeSeq (data.set p v) ps vs
  | data, _, _ => data

/-- The state and value sequence of `k` fixed-delta emissions
(`prevValue + deltaBase` each). -/
def deltaFixedRun (s : RleState) : Nat → RleState × List Nat
  | 0 => (s, [])
  | k + 1 =>
    let v := add64 s.prevValue s.deltaBase
    let r := deltaFixedRun { s with prevValue := v, runRead := s.runRead + 1 } k
    (r.1, v :: r.2)

/-- The state and value sequence of accumulating the unpacked deltas `ds`
into the running previous value. -/
def deltaAccumRun (negative : Bool) (s : RleState) : List Nat → RleState × List Nat
  | [] => (s, [])
  | d :: ds =>
    let v := if negative then sub64 s.prevValue d else add64 s.prevValue d
    let r := deltaAccumRun negative { s with prevValue := v } ds
    (r.1, v :: r.2)

/-- The reference semantics of the tail of a `nextDelta` window (non-zero
`bitSize`): possibly the second value, then the accumulated unpacked
deltas. -/
def deltaRunTail (s : RleState) (k : Nat) : Except OrcErr (RleState × List Nat) :=
  let p2 : RleState × List Nat × Nat :=
    if s.runRead < 2 ∧ 0 < k then
      let v := add64 s.firstValue s.deltaBase
      ({ s with prevValue := v, runRead := s.runRead + 1 }, [v], k - 1)
    else (s, [], k)
  match p2 with
  | (s, secondVals, k) =>
    match readValuesGo s.bitSize k s.curByte s.bitsLeft s.input with
    | .error e => .error e
    | .ok (ds, curByte, bitsLeft, input) =>
      let s := { s with runRead := s.runRead + k, curByte := curByte,
                        bitsLeft := bitsLeft, input := input }
      let r := deltaAccumRun (decide (sInt64 s.deltaBase < 0)) s ds
      .ok (r.1, secondVals ++ r.2)

/-- The reference semantics of one `nextDelta` window at a state with the
header already parsed: the decoder state and the sequence of `k` values the
run yields, independent of buffer positions and null layout. -/
def deltaRun (s : RleState) (k : Nat) : Except OrcErr (RleState × List Nat) :=
  let p1 : RleState × List Nat × Nat :=
    if s.runRead = 0 ∧ 0 < k then ({ s with runRead := 1 }, [s.firstValue], k - 1)
    else (s, [], k)
  match p1 with
  | (s, firstVals, k) =>
    if s.bitSize = 0 then
      let r := deltaFixedRun s k
      .ok (r.1, firstVals ++ r.2)
    else
      match deltaRunTail s k with
      | .error e => .error e
      | .ok (s2, vs) => .ok (s2, firstVals ++ vs)

/-- A decoder state in the middle of a fixed-width-zero DELTA run: one of
three values already delivered, `prevValue = 10`, `deltaBase = +1`. -/
def c10Base : RleState := initialRleState [] false

def c10State : RleState :=
  { c10Base with runLength := 3, runRead := 1, deltaBase := 1, prevValue := 10,
                 firstValue := 10 }

/-- The loop-level per-value step: parse a fresh header (reading the header
byte) when the run is exhausted, then advance the state by one value of the
current encoding. -/
def valueStepState (s : RleState) : Except OrcErr RleState :=
  match ((if s.runRead = s.runLength then
            match readByteB s.input with
            | .error e => .error e
            | .ok (fb, input) => .ok { s with firstByte := fb, input := input }
          else .ok s) : Except OrcErr RleState) with
  | .error e => .error e
  | .ok s =>
    match decodeEncoding s.firstByte with
    | some enc =>
      match (if s.runRead = s.runLength then parseHeaderOf enc s else .ok s) with
      | .error e => .error e
      | .ok s => stepStateOf enc s
    | none => .error (.parseError "unknown encoding")

/-! # Theorems -/

/-! ## C5: fixed-width tables -/

/-- C5 (counterexample): the claim quantifies `getClosestFixedBits(n) ≥ n`
over every `n`, but at `n = 65` the function returns 64, which is smaller. -/
theorem getClosestFixedBits_not_ge_at_65 :
    getClosestFixedBits 65 = 64 ∧ ¬(65 ≤ getClosestFixedBits 65) := by decide

set_option maxHeartbeats 1600000 in
/-- C5 (amended): `getClosestFixedBits` always returns one of the 32
supported widths, and rounds up (`n ≤ getClosestFixedBits n`) for every
`n ≤ 64`; `decodeBitWidth` maps a symbol `s ∈ [0,23]` to `s + 1` and a
symbol `s ∈ [24,31]` to `26, 28, 30, 32, 40, 48, 56, 64` in order; and
`getClosestFixedBits` fixes every decoded width. -/
theorem getClosestFixedBits_decodeBitWidth_spec (n s : Nat) (hs : s ≤ 31) :
    getClosestFixedBits n ∈ supportedWidths ∧
    (n ≤ 64 → n ≤ getClosestFixedBits n) ∧
    getClosestFixedBits (decodeBitWidth s) = decodeBitWidth s ∧
    (s ≤ 23 → decodeBitWidth s = s + 1) ∧
    (24 ≤ s → decodeBitWidth s = [26, 28, 30, 32, 40, 48, 56, 64].getD (s - 24) 0) := by
  refine ⟨?_, ?_, ?_, ?_, ?_⟩
  · unfold getClosestFixedBits
    split_ifs with h1 h2 h3 h4 h5 h6 h7 h8 h9
    · decide
    · obtain ⟨hl, hr⟩ := h2
      interval_cases n <;> decide
    all_goals decide
  · intro hn
    unfold getClosestFixedBits
    split_ifs <;> omega
  · interval_cases s <;> decide
  · intro h
    interval_cases s <;> decide
  · intro h
    interval_cases s <;> decide

/-- C5 (witness). -/
theorem getClosestFixedBits_decodeBitWidth_spec_witness :
    getClosestFixedBits 40 ∈ supportedWidths ∧
    (40 ≤ 64 → 40 ≤ getClosestFixedBits 40) ∧
    getClosestFixedBits (decodeBitWidth 25) = decodeBitWidth 25 ∧
    (25 ≤ 23 → decodeBitWidth 25 = 25 + 1) ∧
    (24 ≤ 25 → decodeBitWidth 25 = [26, 28, 30, 32, 40, 48, 56, 64].getD (25 - 24) 0) :=
  getClosestFixedBits_decodeBitWidth_spec 40 25 (by decide)

/-! ## C9: totality of the encoding dispatch -/

/-- C9: `((firstByte >> 6) & 0x03)` always yields one of the four
sub-encodings, so the `"unknown encoding"` `ParseError` branch of
`RleDecoderV2::next` is unreachable for every header byte. -/
theorem decodeEncoding_total (firstByte : Nat) : (decodeEncoding firstByte).isSome = true := by
  have h : (firstByte >>> 6) &&& 0x03 ≤ 3 := Nat.and_le_right
  have h4 : (firstByte >>> 6) &&& 0x03 = 0 ∨ (firstByte >>> 6) &&& 0x03 = 1 ∨
      (firstByte >>> 6) &&& 0x03 = 2 ∨ (firstByte >>> 6) &&& 0x03 = 3 := by omega
  unfold decodeEncoding
  rcases h4 with h0 | h0 | h0 | h0 <;> simp [h0]

/-! ## C3: magic validation -/

/-- C3 (counterexample): in the 11-byte file below the last byte gives the
postscript length `L = 4`, so the postscript occupies offsets `[6, 10)` and
the claim places the magic check at offsets `[3, 6)` — where `"ORC"`
(bytes 79 82 67) indeed sits.  The first three bytes of the file are not the
magic.  Per the claim the check must succeed; the reader instead raises
`ParseError("Not an ORC file")`, because it compares the three bytes at the
start of the postscript (offsets `[6, 9)`). -/
theorem ensureOrcFooter_rejects_magic_before_postscript :
    readPostscriptMagic [0, 0, 0, 79, 82, 67, 1, 2, 3, 4, 4]
        [0, 0, 0, 79, 82, 67, 1, 2, 3, 4, 4]
      = .error (.parseError "Not an ORC file") ∧
    sliceBytes [0, 0, 0, 79, 82, 67, 1, 2, 3, 4, 4] 3 3 = magicBytes ∧
    ([0, 0, 0, 79, 82, 67, 1, 2, 3, 4, 4] : Bytes).length - 1 - 4 - 3 = 3 :=
  ⟨rfl, rfl, rfl⟩

/-- C3 (amended): with the postscript length `L` from the last byte, the
reader first rejects `L < 4` (`"Invalid postscript length"`); otherwise it
validates the magic at the FIRST three bytes of the postscript, i.e. file
offsets `[fileLen-1-L, fileLen-1-L+3)`; only if that comparison fails does
it read the first three bytes of the file, and it raises
`ParseError("Not an ORC file")` exactly when the magic is present at neither
location. -/
theorem ensureOrcFooter_spec (file buffer : Bytes) (d L : Nat)
    (htail : buffer = file.drop d) (hd : d + buffer.length = file.length)
    (hcov : L + 1 ≤ buffer.length) (h4 : 4 ≤ L) :
    (ensureOrcFooter file buffer L = .ok () ↔
      (sliceBytes file (file.length - 1 - L) 3 = magicBytes ∨
       sliceBytes file 0 3 = magicBytes)) ∧
    (ensureOrcFooter file buffer L = .error (.parseError "Not an ORC file") ↔
      (sliceBytes file (file.length - 1 - L) 3 ≠ magicBytes ∧
       sliceBytes file 0 3 ≠ magicBytes)) ∧
    (∀ M, M < 4 → ensureOrcFooter file buffer M
        = .error (.parseError "Invalid postscript length")) := by
  have hslice : sliceBytes buffer (buffer.length - 1 - L) 3
      = sliceBytes file (file.length - 1 - L) 3 := by
    subst htail
    unfold sliceBytes
    rw [List.drop_drop]
    congr 2
    simp only [List.length_drop] at hd hcov ⊢
    omega
  refine ⟨?_, ?_, ?_⟩
  · unfold ensureOrcFooter
    rw [hslice]
    have hL : ¬ (L < 3 + 1) := by omega
    simp only [hL, if_false]
    by_cases hm : sliceBytes file (file.length - 1 - L) 3 = magicBytes <;>
      by_cases hh : sliceBytes file 0 3 = magicBytes <;> simp [hm, hh]
  · unfold ensureOrcFooter
    rw [hslice]
    have hL : ¬ (L < 3 + 1) := by omega
    simp only [hL, if_false]
    by_cases hm : sliceBytes file (file.length - 1 - L) 3 = magicBytes <;>
      by_cases hh : sliceBytes file 0 3 = magicBytes <;> simp [hm, hh]
  · intro M hM
    unfold ensureOrcFooter
    have : M < 3 + 1 := by omega
    simp [this]

/-- C3 (witness). -/
theorem ensureOrcFooter_spec_witness :
    (ensureOrcFooter [79, 82, 67, 9, 9, 9, 9, 4] [79, 82, 67, 9, 9, 9, 9, 4] 4 = .ok () ↔
      (sliceBytes [79, 82, 67, 9, 9, 9, 9, 4] (([79, 82, 67, 9, 9, 9, 9, 4] : Bytes).length - 1 - 4) 3
          = magicBytes ∨
       sliceBytes [79, 82, 67, 9, 9, 9, 9, 4] 0 3 = magicBytes)) ∧
    (ensureOrcFooter [79, 82, 67, 9, 9, 9, 9, 4] [79, 82, 67, 9, 9, 9, 9, 4] 4
        = .error (.parseError "Not an ORC file") ↔
      (sliceBytes [79, 82, 67, 9, 9, 9, 9, 4] (([79, 82, 67, 9, 9, 9, 9, 4] : Bytes).length - 1 - 4) 3
          ≠ magicBytes ∧
       sliceBytes [79, 82, 67, 9, 9, 9, 9, 4] 0 3 ≠ magicBytes)) ∧
    (∀ M, M < 4 → ensureOrcFooter [79, 82, 67, 9, 9, 9, 9, 4] [79, 82, 67, 9, 9, 9, 9, 4] M
        = .error (.parseError "Invalid postscript length")) :=
  ensureOrcFooter_spec [79, 82, 67, 9, 9, 9, 9, 4] [79, 82, 67, 9, 9, 9, 9, 4] 0 4
    rfl (by decide) (by decide) (by decide)

/-! ## C7: statistics accessors -/

/-- C7 (counterexample): on a statistics message without integer statistics,
`IntegerColumnStatisticsImpl::getMinimum` raises
`ParseError("Minimum is not defined.")` — an error naming the field but of
`ParseError` kind, not of the spec's distinct `StatsUndefined` kind. -/
theorem intStats_getMinimum_not_statsUndefined :
    (IntegerColumnStatisticsImpl.ofProto
        { numberOfValues := 0, hasIntStatistics := false, hasMin := false, hasMax := false,
          hasSum := false, minimum := 0, maximum := 0, sum := 0 }).getMinimum
      = .error (.parseError "Minimum is not defined.") ∧
    (OrcErr.parseError "Minimum is not defined.").isStatsUndefined = false :=
  ⟨rfl, rfl⟩

/-- C7 (amended): each typed accessor returns the message's value when the
underlying field is present, and raises `ParseError` with a message naming
the missing field ("Minimum/Maximum/Sum is not defined.") when it is absent
(either because the whole `intstatistics` submessage is missing or the
individual field is). -/
theorem intStats_accessors_spec (pb : IntegerStatsMsg) :
    (IntegerColumnStatisticsImpl.ofProto pb).getMinimum
        = (if pb.hasIntStatistics && pb.hasMin then .ok pb.minimum
           else .error (.parseError "Minimum is not defined.")) ∧
    (IntegerColumnStatisticsImpl.ofProto pb).getMaximum
        = (if pb.hasIntStatistics && pb.hasMax then .ok pb.maximum
           else .error (.parseError "Maximum is not defined.")) ∧
    (IntegerColumnStatisticsImpl.ofProto pb).getSum
        = (if pb.hasIntStatistics && pb.hasSum then .ok pb.sum
           else .error (.parseError "Sum is not defined.")) := by
  unfold IntegerColumnStatisticsImpl.ofProto IntegerColumnStatisticsImpl.getMinimum
    IntegerColumnStatisticsImpl.getMaximum IntegerColumnStatisticsImpl.getSum
  cases hI : pb.hasIntStatistics <;> cases hm : pb.hasMin <;> cases hx : pb.hasMax <;>
    cases hsu : pb.hasSum <;> simp

/-! ## C2: DELTA runs with a zero header width field -/

/-- C2: evaluation at the failing input.  The stream is a one-value DIRECT
run of width 8 (bytes `4e 00 2a`, emitting 42) followed by a three-value
DELTA run whose header width field is zero (header `c0 02`, `firstValue`
10 read as `readVulong`, `deltaBase` +1 read as `readVslong`).  Per the
claim, a zero bit-width field means each subsequent value is the previous
plus `deltaBase`, so the run must decode as 10, 11, 12 and leave the final
byte 5 unconsumed.  The decoder instead dispatches on the stale
`bitSize = 8` retained from the DIRECT run, reads the trailing byte as an
unsigned fixed-width delta, and produces 10, 11, 16 with the whole stream
consumed. -/
theorem nextDelta_stale_bitSize_eval :
    (rleNext (initialRleState [78, 0, 42, 192, 2, 10, 2, 5] false)
        (List.replicate 4 0) 4 none).map (·.2) = .ok [42, 10, 11, 16] ∧
    (rleNext (initialRleState [78, 0, 42, 192, 2, 10, 2, 5] false)
        (List.replicate 4 0) 4 none).map (fun p => p.1.input) = .ok [] :=
  ⟨rfl, rfl⟩

/-! ## C4: batches on failure -/

/-- C4 (counterexample): when the column-reader decode fails mid-stripe,
`ReaderImpl::next` propagates the error, but the batch's `numElements` —
assigned to `rowsToRead` before the root reader runs — is 5, not 0. -/
theorem readerNext_failure_partial_batch :
    (readerNext (fun _ => .ok ()) (fun _ => .error (.parseError "bad stripe data"))
        { stripeRows := [10], firstRowOfStripe := [0], currentStripe := 0, lastStripe := 0,
          currentRowInStripe := 3, rowsInCurrentStripe := 10, previousRow := 2 }
        { capacity := 5, numElements := 0 }).1 = .error (.parseError "bad stripe data") ∧
    (readerNext (fun _ => .ok ()) (fun _ => .error (.parseError "bad stripe data"))
        { stripeRows := [10], firstRowOfStripe := [0], currentStripe := 0, lastStripe := 0,
          currentRowInStripe := 3, rowsInCurrentStripe := 10, previousRow := 2 }
        { capacity := 5, numElements := 0 }).2.numElements = 5 :=
  ⟨rfl, rfl⟩

/-- C4 (amended): on a failing call no rows are delivered, but `numElements`
is not left at zero: a stripe-footer failure (raised before `numElements` is
touched) leaves the batch exactly as the caller passed it, and a decode
failure in the column-reader tree leaves `numElements` equal to the already
computed `rowsToRead`. -/
theorem readerNext_failure_spec (sf rn : Nat → Except OrcErr Unit) (s : ReaderState)
    (b : RowBatch) (h : ¬ s.lastStripe < s.currentStripe) :
    (∀ e, s.currentRowInStripe = 0 → sf s.currentStripe = .error e →
        readerNext sf rn s b = (.error e, b)) ∧
    (∀ e, (s.currentRowInStripe = 0 → sf s.currentStripe = .ok ()) →
        rn (min b.capacity
              ((if s.currentRowInStripe = 0 then s.stripeRows.getD s.currentStripe 0
                else s.rowsInCurrentStripe) - s.currentRowInStripe)) = .error e →
        readerNext sf rn s b
          = (.error e,
             { b with numElements := min b.capacity ((if s.currentRowInStripe = 0 then s.stripeRows.getD s.currentStripe 0 else s.rowsInCurrentStripe) - s.currentRowInStripe) })) := by
  constructor
  · intro e h0 he
    unfold readerNext
    simp [h, h0, he]
  · intro e hok he
    unfold readerNext
    by_cases h0 : s.currentRowInStripe = 0
    · simp [h0] at he
      simp [h, h0, hok h0, he]
    · simp [h0] at he
      simp [h, h0, he]

/-- C4 (witness). -/
theorem readerNext_failure_spec_witness :
    readerNext (fun _ => .ok ()) (fun _ => .error (.parseError "bad stripe data"))
        { stripeRows := [10], firstRowOfStripe := [0], currentStripe := 0, lastStripe := 0,
          currentRowInStripe := 3, rowsInCurrentStripe := 10, previousRow := 2 }
        { capacity := 5, numElements := 0 }
      = (.error (.parseError "bad stripe data"),
         { capacity := 5, numElements := 5 }) :=
  (readerNext_failure_spec (fun _ => .ok ())
      (fun _ => .error (.parseError "bad stripe data"))
      { stripeRows := [10], firstRowOfStripe := [0], currentStripe := 0, lastStripe := 0,
        currentRowInStripe := 3, rowsInCurrentStripe := 10, previousRow := 2 }
      { capacity := 5, numElements := 0 } (by decide)).2
    (.parseError "bad stripe data") (fun h => absurd h (by decide)) rfl

/-! ## C1: bounds of a successful `next` -/

/-- C1: if all stripes in the selected range are consumed, `next` returns
false with `numElements = 0`; otherwise, whenever the call returns (rather
than raising), it sets `numElements = min(capacity, rows remaining in the
current stripe)` and returns `rowsToRead ≠ 0` — so a true return implies
`0 < numElements ≤ capacity`. -/
theorem readerNext_spec (sf rn : Nat → Except OrcErr Unit) (s : ReaderState) (b : RowBatch)
    (hcur : s.currentRowInStripe ≤ s.rowsInCurrentStripe) :
    (s.lastStripe < s.currentStripe →
        (readerNext sf rn s b).1
            = .ok (false,
                { s with previousRow := s.firstRowOfStripe.getD s.lastStripe 0
                    + s.stripeRows.getD s.lastStripe 0 }) ∧
        (readerNext sf rn s b).2 = { b with numElements := 0 }) ∧
    (¬ s.lastStripe < s.currentStripe →
      ∀ r s₁, (readerNext sf rn s b).1 = .ok (r, s₁) →
        (readerNext sf rn s b).2.numElements
            = min b.capacity
                ((if s.currentRowInStripe = 0 then s.stripeRows.getD s.currentStripe 0
                  else s.rowsInCurrentStripe) - s.currentRowInStripe) ∧
        r = decide (¬ (readerNext sf rn s b).2.numElements = 0) ∧
        (r = true →
          0 < (readerNext sf rn s b).2.numElements ∧
          (readerNext sf rn s b).2.numElements ≤ b.capacity)) := by
  constructor
  · intro h
    unfold readerNext
    simp [h]
  · intro h
    by_cases h0 : s.currentRowInStripe = 0
    · unfold readerNext
      simp only [h, if_false, h0, if_true, if_pos]
      rcases hsf : sf s.currentStripe with e | u
      · simp only [hsf]
        intro r s₁ habs
        simp at habs
      · simp only [hsf]
        rcases hrn : rn (min b.capacity (s.stripeRows.getD s.currentStripe 0 - 0)) with e | u2
        · simp only [hrn]
          intro r s₁ habs
          simp at habs
        · simp only [hrn]
          intro r s₁ heq
          simp at heq ⊢
          obtain ⟨hr, hs⟩ := heq
          subst hr
          constructor
          · simp
          · intro h1
            simp at h1
            omega
    · unfold readerNext
      simp only [h, h0, if_false]
      rcases hrn : rn (min b.capacity (s.rowsInCurrentStripe - s.currentRowInStripe)) with e | u2
      · simp only [hrn]
        intro r s₁ habs
        simp at habs
      · simp only [hrn]
        intro r s₁ heq
        simp at heq ⊢
        obtain ⟨hr, hs⟩ := heq
        subst hr
        constructor
        · simp
        · intro h1
          simp at h1
          omega

/-- C1 (witness). -/
theorem readerNext_spec_witness :
    ((3 : Nat) < 1 →
        (readerNext (fun _ => .ok ()) (fun _ => .ok ())
            { stripeRows := [10], firstRowOfStripe := [0], currentStripe := 1, lastStripe := 3,
              currentRowInStripe := 4, rowsInCurrentStripe := 10, previousRow := 0 }
            { capacity := 7, numElements := 0 }).1
            = .ok (false,
                { stripeRows := [10], firstRowOfStripe := [0], currentStripe := 1, lastStripe := 3,
                  currentRowInStripe := 4, rowsInCurrentStripe := 10,
                  previousRow := ([0] : List Nat).getD 3 0 + ([10] : List Nat).getD 3 0 }) ∧
        (readerNext (fun _ => .ok ()) (fun _ => .ok ())
            { stripeRows := [10], firstRowOfStripe := [0], currentStripe := 1, lastStripe := 3,
              currentRowInStripe := 4, rowsInCurrentStripe := 10, previousRow := 0 }
            { capacity := 7, numElements := 0 }).2 = { capacity := 7, numElements := 0 }) ∧
    (¬ (3 : Nat) < 1 →
      ∀ r s₁, (readerNext (fun _ => .ok ()) (fun _ => .ok ())
            { stripeRows := [10], firstRowOfStripe := [0], currentStripe := 1, lastStripe := 3,
              currentRowInStripe := 4, rowsInCurrentStripe := 10, previousRow := 0 }
            { capacity := 7, numElements := 0 }).1 = .ok (r, s₁) →
        (readerNext (fun _ => .ok ()) (fun _ => .ok ())
            { stripeRows := [10], firstRowOfStripe := [0], currentStripe := 1, lastStripe := 3,
              currentRowInStripe := 4, rowsInCurrentStripe := 10, previousRow := 0 }
            { capacity := 7, numElements := 0 }).2.numElements
            = min 7 ((if (4 : Nat) = 0 then ([10] : List Nat).getD 1 0 else 10) - 4) ∧
        r = decide (¬ (readerNext (fun _ => .ok ()) (fun _ => .ok ())
            { stripeRows := [10], firstRowOfStripe := [0], currentStripe := 1, lastStripe := 3,
              currentRowInStripe := 4, rowsInCurrentStripe := 10, previousRow := 0 }
            { capacity := 7, numElements := 0 }).2.numElements = 0) ∧
        (r = true →
          0 < (readerNext (fun _ => .ok ()) (fun _ => .ok ())
            { stripeRows := [10], firstRowOfStripe := [0], currentStripe := 1, lastStripe := 3,
              currentRowInStripe := 4, rowsInCurrentStripe := 10, previousRow := 0 }
            { capacity := 7, numElements := 0 }).2.numElements ∧
          (readerNext (fun _ => .ok ()) (fun _ => .ok ())
            { stripeRows := [10], firstRowOfStripe := [0], currentStripe := 1, lastStripe := 3,
              currentRowInStripe := 4, rowsInCurrentStripe := 10, previousRow := 0 }
            { capacity := 7, numElements := 0 }).2.numElements ≤ 7)) :=
  readerNext_spec (fun _ => .ok ()) (fun _ => .ok ())
    { stripeRows := [10], firstRowOfStripe := [0], currentStripe := 1, lastStripe := 3,
      currentRowInStripe := 4, rowsInCurrentStripe := 10, previousRow := 0 }
    { capacity := 7, numElements := 0 } (by decide)

/-! ## C6: column-selection closure -/

theorem SelLe.refl (s : List Bool) : SelLe s s := fun _ h => h

theorem SelLe.trans {s₁ s₂ s₃ : List Bool} (h₁ : SelLe s₁ s₂) (h₂ : SelLe s₂ s₃) : SelLe s₁ s₃ :=
  fun i h => h₂ i (h₁ i h)

theorem isParent_lt_types_length {types : List (List Nat)} {p c : Nat}
    (h : isParent types p c) : p < types.length := by
  by_contra hge
  have : subtypesOf types p = [] := by
    unfold subtypesOf
    exact List.getD_eq_default _ _ (by omega)
  rw [isParent, this] at h
  exact absurd h (List.not_mem_nil c)

theorem getD_set_true_iff (l : List Bool) (p i : Nat) :
    (l.set p true).getD i false = true ↔ (i = p ∧ p < l.length) ∨ l.getD i false = true := by
  by_cases hip : i = p
  · subst hip
    by_cases hl : i < l.length
    · simp [List.getD_eq_getElem?_getD, List.getElem?_set_self', hl]
    · rw [List.set_eq_of_length_le (by omega)]
      simp [hl]
  · simp [List.getD_eq_getElem?_getD, List.getElem?_set_ne (by omega : p ≠ i), hip]

theorem selLe_set (l : List Bool) (p : Nat) : SelLe l (l.set p true) := by
  intro i h
  rw [getD_set_true_iff]
  exact Or.inr h

-- ### findUnselParent

theorem findUnselParent_some {types : List (List Nat)} {sel : List Bool} {c p : Nat}
    (h : findUnselParent types sel c = some p) :
    p < c ∧ isParent types p c ∧ sel.getD p false = false := by
  unfold findUnselParent at h
  have hmem := List.mem_of_find?_eq_some h
  have hpred := List.find?_some h
  rw [List.mem_range] at hmem
  simp only [Bool.and_eq_true, decide_eq_true_eq, Bool.not_eq_true'] at hpred
  exact ⟨hmem, hpred.1, hpred.2⟩

theorem findUnselParent_none {types : List (List Nat)} {sel : List Bool} {c : Nat}
    (h : findUnselParent types sel c = none) :
    ∀ p, p < c → isParent types p c → sel.getD p false = true := by
  intro p hp hpar
  unfold findUnselParent at h
  rw [List.find?_eq_none] at h
  have := h p (List.mem_range.mpr hp)
  simp only [Bool.and_eq_true, decide_eq_true_eq, Bool.not_eq_true'] at this
  by_contra hne
  exact this ⟨hpar, by revert hne; cases sel.getD p false <;> simp⟩

-- ### selectTypeParentF

theorem selectTypeParentF_mono (types : List (List Nat)) :
    ∀ fuel c sel, SelLe sel (selectTypeParentF types fuel c sel) := by
  intro fuel
  induction fuel with
  | zero => intro c sel; exact SelLe.refl _
  | succ fuel ih =>
    intro c sel
    unfold selectTypeParentF
    cases hf : findUnselParent types sel c with
    | none => exact SelLe.refl _
    | some p => exact (selLe_set sel p).trans (ih p _)

theorem selectTypeParentF_length (types : List (List Nat)) :
    ∀ fuel c sel, (selectTypeParentF types fuel c sel).length = sel.length := by
  intro fuel
  induction fuel with
  | zero => intro c sel; rfl
  | succ fuel ih =>
    intro c sel
    unfold selectTypeParentF
    cases hf : findUnselParent types sel c with
    | none => rfl
    | some p => rw [ih p _, List.length_set]

theorem selectTypeParentF_parents (types : List (List Nat))
    (hg : ChildrenInRange types) (hu : UniqueParent types) :
    ∀ fuel c sel, c < fuel → sel.length = types.length →
      ∀ q, isParent types q c → (selectTypeParentF types fuel c sel).getD q false = true := by
  intro fuel
  induction fuel with
  | zero => intro c sel hc; omega
  | succ fuel ih =>
    intro c sel hc hlen q hq
    unfold selectTypeParentF
    cases hf : findUnselParent types sel c with
    | none =>
      have hqlt : q < types.length := isParent_lt_types_length hq
      have hqc : q < c := (hg q hqlt c hq).1
      exact findUnselParent_none hf q hqc hq
    | some p =>
      obtain ⟨hpc, hppar, hpuns⟩ := findUnselParent_some hf
      have hple : p < types.length := isParent_lt_types_length hppar
      have hqp : q = p := by
        have hqlt : q < types.length := isParent_lt_types_length hq
        exact hu q hqlt p hple c hq hppar
      subst hqp
      have : (sel.set q true).getD q false = true := by
        rw [getD_set_true_iff]
        exact Or.inl ⟨rfl, by omega⟩
      exact selectTypeParentF_mono types fuel q _ q this

-- ### parent-closure preservation

theorem selectTypeParentF_parentClosed (types : List (List Nat))
    (hg : ChildrenInRange types) (hu : UniqueParent types) :
    ∀ fuel c sel, c < fuel → sel.length = types.length → QInv types sel c →
      ParentClosed types (selectTypeParentF types fuel c sel) := by
  intro fuel
  induction fuel with
  | zero => intro c sel hc; omega
  | succ fuel ih =>
    intro c sel hc hlen hq
    unfold selectTypeParentF
    cases hf : findUnselParent types sel c with
    | none =>
      intro d q hd hpar
      rcases hq d q hd hpar with hsel | hpc
      · exact hsel
      · have hqlt : q < types.length := isParent_lt_types_length hpc
        exact findUnselParent_none hf q (hg q hqlt c hpc).1 hpc
    | some p =>
      obtain ⟨hpc, hppar, hpuns⟩ := findUnselParent_some hf
      have hple : p < types.length := isParent_lt_types_length hppar
      apply ih p (sel.set p true) (by omega) (by rw [List.length_set]; exact hlen)
      intro d q hd hpar
      rcases (getD_set_true_iff sel p d).mp hd with ⟨hdp, _⟩ | hdsel
      · subst hdp
        exact Or.inr hpar
      · rcases hq d q hdsel hpar with hsel | hqc
        · exact Or.inl ((selLe_set sel p) q hsel)
        · have hqlt : q < types.length := isParent_lt_types_length hqc
          have : q = p := hu q hqlt p hple c hqc hppar
          subst this
          exact Or.inl ((getD_set_true_iff sel q q).mpr (Or.inl ⟨rfl, by omega⟩))

-- ### selectTypeChildrenF

theorem selectTypeChildrenF_mono (types : List (List Nat)) :
    ∀ fuel c sel, SelLe sel (selectTypeChildrenF types fuel c sel) := by
  intro fuel
  induction fuel with
  | zero => intro c sel; exact SelLe.refl _
  | succ fuel ih =>
    intro c sel
    unfold selectTypeChildrenF
    by_cases hc : sel.getD c false
    · simp only [hc, if_true]
      exact SelLe.refl _
    · simp only [hc, if_false, Bool.false_eq_true]
      have hgen : ∀ (lst : List Nat) (acc : List Bool),
          SelLe acc (lst.foldl (fun a x => selectTypeChildrenF types fuel x a) acc) := by
        intro lst
        induction lst with
        | nil => intro acc; exact SelLe.refl _
        | cons x xs ihl =>
          intro acc
          exact (ih x acc).trans (ihl _)
      exact (selLe_set sel c).trans (hgen _ _)

theorem selectTypeChildrenF_length (types : List (List Nat)) :
    ∀ fuel c sel, (selectTypeChildrenF types fuel c sel).length = sel.length := by
  intro fuel
  induction fuel with
  | zero => intro c sel; rfl
  | succ fuel ih =>
    intro c sel
    unfold selectTypeChildrenF
    by_cases hc : sel.getD c false
    · simp only [hc, if_true]
    · simp only [hc, if_false, Bool.false_eq_true]
      have hgen : ∀ (lst : List Nat) (acc : List Bool),
          (lst.foldl (fun a x => selectTypeChildrenF types fuel x a) acc).length = acc.length := by
        intro lst
        induction lst with
        | nil => intro acc; rfl
        | cons x xs ihl =>
          intro acc
          rw [List.foldl_cons, ihl, ih]
      rw [hgen, List.length_set]

theorem selectTypeChildrenF_marks (types : List (List Nat)) :
    ∀ fuel c sel, 0 < fuel → c < sel.length →
      (selectTypeChildrenF types fuel c sel).getD c false = true := by
  intro fuel c sel hf hc
  cases fuel with
  | zero => omega
  | succ fuel =>
    unfold selectTypeChildrenF
    by_cases hsel : sel.getD c false
    · simp only [hsel, if_true]
    · simp only [hsel, if_false, Bool.false_eq_true]
      have hgen : ∀ (lst : List Nat) (acc : List Bool),
          SelLe acc (lst.foldl (fun a x => selectTypeChildrenF types fuel x a) acc) := by
        intro lst
        induction lst with
        | nil => intro acc; exact SelLe.refl _
        | cons x xs ihl =>
          intro acc
          exact (selectTypeChildrenF_mono types fuel x acc).trans (ihl _)
      exact hgen _ _ c ((getD_set_true_iff sel c c).mpr (Or.inl ⟨rfl, hc⟩))

theorem selectTypeChildrenF_parentClosed (types : List (List Nat))
    (hu : UniqueParent types) :
    ∀ fuel c sel, sel.length = types.length →
      (∀ q, isParent types q c → sel.getD q false = true) →
      ParentClosed types sel →
      ParentClosed types (selectTypeChildrenF types fuel c sel) := by
  intro fuel
  induction fuel with
  | zero => intro c sel _ _ hcl; exact hcl
  | succ fuel ih =>
    intro c sel hlen hpar hcl
    unfold selectTypeChildrenF
    by_cases hc : sel.getD c false
    · simp only [hc, if_true]
      exact hcl
    · simp only [hc, if_false, Bool.false_eq_true]
      -- after marking c, the parents of every subtype of c (namely c itself,
      -- by uniqueness) are marked
      have hsetcl : ParentClosed types (sel.set c true) := by
        intro d q hd hparent
        rcases (getD_set_true_iff sel c d).mp hd with ⟨hdc, _⟩ | hdsel
        · exact (selLe_set sel c) q (hpar q (hdc ▸ hparent))
        · exact (selLe_set sel c) q (hcl d q hdsel hparent)
      have hgen : ∀ (lst : List Nat) (acc : List Bool),
          (∀ x ∈ lst, ∀ q, isParent types q x → acc.getD q false = true) →
          acc.length = types.length →
          ParentClosed types acc →
          ParentClosed types (lst.foldl (fun a x => selectTypeChildrenF types fuel x a) acc) := by
        intro lst
        induction lst with
        | nil => intro acc _ _ hacc; exact hacc
        | cons x xs ihl =>
          intro acc hx hlacc hacc
          rw [List.foldl_cons]
          apply ihl
          · intro y hy q hq
            exact selectTypeChildrenF_mono types fuel x acc q (hx y (by simp [hy]) q hq)
          · rw [selectTypeChildrenF_length]; exact hlacc
          · exact ih x acc hlacc (hx x (by simp) ) hacc
      by_cases hclen : c < sel.length
      · apply hgen
        · intro x hx q hq
          have hqlen : q < types.length := isParent_lt_types_length hq
          have hcx : isParent types c x := hx
          have : q = c := hu q hqlen c (by omega) x hq hcx
          subst this
          exact (getD_set_true_iff sel q q).mpr (Or.inl ⟨rfl, hclen⟩)
        · rw [List.length_set]; exact hlen
        · exact hsetcl
      · -- c out of range: its subtype list is empty and set is a no-op
        have hce : subtypesOf types c = [] := by
          unfold subtypesOf
          exact List.getD_eq_default _ _ (by omega)
        rw [hce, List.set_eq_of_length_le (by omega)]
        simp only [List.foldl_nil]
        exact hcl

-- ### assembly

theorem parentClosed_ancestors {types : List (List Nat)} {sel : List Bool}
    (h : ParentClosed types sel) :
    ∀ a c, IsAncestor types a c → sel.getD c false = true → sel.getD a false = true := by
  intro a c hanc
  induction hanc with
  | parent hp => intro hc; exact h _ _ hc hp
  | step hp _ ih => intro hc; exact h _ _ (ih hc) hp

theorem getD_replicate_false (n i : Nat) :
    (List.replicate n false).getD i false = false := by
  rcases lt_or_ge i n with h | h
  · simp [List.getD_eq_getElem?_getD, List.getElem?_replicate, h]
  · simp [List.getD_eq_getElem?_getD, List.getElem?_replicate, Nat.not_lt.mpr h]

/-- C6 (amended): after the reader's constructor runs the column selection
over a well-formed type table (pre-order child ids, unique parents), the
selected-columns vector is ancestor-closed — for every selected column `c`,
every ancestor of `c` on the path to the root is selected — and every
included column id within the accepted bound (the root's subtype count, and
the table size) is itself selected.  Descendant-closure does NOT hold for
every selected column (see the counterexample): ancestors marked by
`selectTypeParent` do not get their other descendants selected. -/
theorem selectColumns_closure (types : List (List Nat)) (included : List Nat)
    (hg : ChildrenInRange types) (hu : UniqueParent types) :
    (∀ c a, (selectColumns types included).getD c false = true →
        IsAncestor types a c → (selectColumns types included).getD a false = true) ∧
    (∀ c ∈ included, c ≤ (subtypesOf types 0).length → c < types.length →
        (selectColumns types included).getD c false = true) := by
  have main : ∀ (lst : List Nat) (sel : List Bool), sel.length = types.length →
      ParentClosed types sel →
      ParentClosed types
          (lst.foldl (fun sel c =>
            if c ≤ (subtypesOf types 0).length then
              selectTypeChildren types c (selectTypeParent types c sel)
            else sel) sel) ∧
        SelLe sel
          (lst.foldl (fun sel c =>
            if c ≤ (subtypesOf types 0).length then
              selectTypeChildren types c (selectTypeParent types c sel)
            else sel) sel) ∧
        (∀ c ∈ lst, c ≤ (subtypesOf types 0).length → c < types.length →
          (lst.foldl (fun sel c =>
            if c ≤ (subtypesOf types 0).length then
              selectTypeChildren types c (selectTypeParent types c sel)
            else sel) sel).getD c false = true) := by
    intro lst
    induction lst with
    | nil =>
      intro sel hlen hcl
      refine ⟨hcl, SelLe.refl _, ?_⟩
      intro c hc
      exact absurd hc (List.not_mem_nil c)
    | cons x xs ihl =>
      intro sel hlen hcl
      rw [List.foldl_cons]
      by_cases hb : x ≤ (subtypesOf types 0).length
      · simp only [hb, if_true]
        -- properties of the parent walk
        have hplen : (selectTypeParent types x sel).length = types.length := by
          unfold selectTypeParent
          rw [selectTypeParentF_length]; exact hlen
        have hpcl : ParentClosed types (selectTypeParent types x sel) :=
          selectTypeParentF_parentClosed types hg hu (x + 1) x sel (by omega) hlen
            (fun d q hd hp => Or.inl (hcl d q hd hp))
        have hppar : ∀ q, isParent types q x →
            (selectTypeParent types x sel).getD q false = true :=
          selectTypeParentF_parents types hg hu (x + 1) x sel (by omega) hlen
        have hpmono : SelLe sel (selectTypeParent types x sel) :=
          selectTypeParentF_mono types (x + 1) x sel
        -- properties of the children walk
        have hclen : (selectTypeChildren types x (selectTypeParent types x sel)).length
            = types.length := by
          unfold selectTypeChildren
          rw [selectTypeChildrenF_length]; exact hplen
        have hccl : ParentClosed types
            (selectTypeChildren types x (selectTypeParent types x sel)) :=
          selectTypeChildrenF_parentClosed types hu (types.length + 1) x _ hplen hppar hpcl
        have hcmono : SelLe (selectTypeParent types x sel)
            (selectTypeChildren types x (selectTypeParent types x sel)) :=
          selectTypeChildrenF_mono types (types.length + 1) x _
        obtain ⟨hfcl, hfmono, hfmarks⟩ := ihl _ hclen hccl
        refine ⟨hfcl, (hpmono.trans hcmono).trans hfmono, ?_⟩
        intro c hc hcb hclt
        rcases List.mem_cons.mp hc with hcx | hcxs
        · subst hcx
          apply hfmono
          unfold selectTypeChildren
          exact selectTypeChildrenF_marks types (types.length + 1) c _ (by omega)
            (by omega)
        · exact hfmarks c hcxs hcb hclt
      · simp only [hb, if_false]
        obtain ⟨hfcl, hfmono, hfmarks⟩ := ihl sel hlen hcl
        refine ⟨hfcl, hfmono, ?_⟩
        intro c hc hcb hclt
        rcases List.mem_cons.mp hc with hcx | hcxs
        · subst hcx; exact absurd hcb hb
        · exact hfmarks c hcxs hcb hclt
  have hstart : (List.replicate types.length false).length = types.length :=
    List.length_replicate _ _
  have hstartcl : ParentClosed types (List.replicate types.length false) := by
    intro d q hd
    rw [getD_replicate_false] at hd
    exact absurd hd (by simp)
  obtain ⟨hfcl, _, hfmarks⟩ := main included (List.replicate types.length false) hstart hstartcl
  exact ⟨fun c a hc hanc => parentClosed_ancestors hfcl a c hanc hc, hfmarks⟩

/-- C6 (counterexample): for the schema with root 0 and children 1 and 2,
constructing the reader with included list `[1]` selects columns 0 and 1;
column 0 is selected and column 2 is its descendant (a direct child), yet
column 2 is not selected — so the selected set is not descendant-closed. -/
theorem selectColumns_not_descendant_closed :
    selectColumns [[1, 2], [], []] [1] = [true, true, false] ∧
    IsAncestor [[1, 2], [], []] 0 2 ∧
    (selectColumns [[1, 2], [], []] [1]).getD 0 false = true ∧
    (selectColumns [[1, 2], [], []] [1]).getD 2 false = false :=
  ⟨by decide, IsAncestor.parent (by decide), by decide, by decide⟩

/-- C6 (witness). -/
theorem selectColumns_closure_witness :
    (∀ c a, (selectColumns [[1, 2], [], []] [1]).getD c false = true →
        IsAncestor [[1, 2], [], []] a c →
        (selectColumns [[1, 2], [], []] [1]).getD a false = true) ∧
    (∀ c ∈ ([1] : List Nat), c ≤ (subtypesOf [[1, 2], [], []] 0).length →
        c < ([[1, 2], [], []] : List (List Nat)).length →
        (selectColumns [[1, 2], [], []] [1]).getD c false = true) :=
  selectColumns_closure [[1, 2], [], []] [1] (by decide) (by decide)




/-! ## C10: DELTA runs under a notNull mask -/


-- ### presentPositions / scanPresent basics

theorem presentPositions_succ (mask : Option (List Bool)) (pos n : Nat) :
    presentPositions mask pos (n + 1)
      = if isPresent mask pos then pos :: presentPositions mask (pos + 1) n
        else presentPositions mask (pos + 1) n := rfl

theorem countPresent_cons_present {mask : Option (List Bool)} {pos : Nat} (n : Nat)
    (h : isPresent mask pos = true) :
    countPresent mask pos (n + 1) = countPresent mask (pos + 1) n + 1 := by
  unfold countPresent
  rw [presentPositions_succ, h]
  simp

theorem countPresent_cons_null {mask : Option (List Bool)} {pos : Nat} (n : Nat)
    (h : isPresent mask pos = false) :
    countPresent mask pos (n + 1) = countPresent mask (pos + 1) n := by
  unfold countPresent
  rw [presentPositions_succ, h]
  simp

theorem countPresent_le (mask : Option (List Bool)) : ∀ n pos, countPresent mask pos n ≤ n := by
  intro n
  induction n with
  | zero => intro pos; rfl
  | succ n ih =>
    intro pos
    by_cases h : isPresent mask pos
    · rw [countPresent_cons_present n h]
      exact Nat.succ_le_succ (ih (pos + 1))
    · rw [countPresent_cons_null n (by simpa using h)]
      exact (ih (pos + 1)).trans (Nat.le_succ n)

theorem countPresent_none : ∀ (n pos : Nat), countPresent none pos n = n := by
  intro n
  induction n with
  | zero => intro pos; rfl
  | succ n ih =>
    intro pos
    rw [countPresent_cons_present n (by rfl), ih]

theorem scanPresent_ge (mask : Option (List Bool)) : ∀ n pos, pos ≤ scanPresent mask pos n := by
  intro n
  induction n with
  | zero => intro pos; exact Nat.le_refl pos
  | succ n ih =>
    intro pos
    unfold scanPresent
    by_cases h : isPresent mask pos
    · rw [if_pos h]
    · rw [if_neg h]
      exact (Nat.le_succ pos).trans (ih (pos + 1))

theorem scanPresent_le (mask : Option (List Bool)) : ∀ n pos, scanPresent mask pos n ≤ pos + n := by
  intro n
  induction n with
  | zero => intro pos; simp [scanPresent]
  | succ n ih =>
    intro pos
    unfold scanPresent
    by_cases h : isPresent mask pos
    · rw [if_pos h]; omega
    · rw [if_neg h]
      have := ih (pos + 1)
      omega

theorem presentPositions_mem_bounds (mask : Option (List Bool)) :
    ∀ n pos q, q ∈ presentPositions mask pos n → pos ≤ q ∧ q < pos + n := by
  intro n
  induction n with
  | zero => intro pos q h; exact absurd h (List.not_mem_nil q)
  | succ n ih =>
    intro pos q h
    rw [presentPositions_succ] at h
    by_cases hp : isPresent mask pos
    · rw [if_pos hp] at h
      rcases List.mem_cons.mp h with rfl | h2
      · omega
      · have := ih (pos + 1) q h2
        omega
    · rw [if_neg hp] at h
      have := ih (pos + 1) q h
      omega

theorem scanPresent_eq_end (mask : Option (List Bool)) :
    ∀ n pos, scanPresent mask pos n = pos + n → presentPositions mask pos n = [] := by
  intro n
  induction n with
  | zero => intro pos _; rfl
  | succ n ih =>
    intro pos h
    unfold scanPresent at h
    rw [presentPositions_succ]
    by_cases hp : isPresent mask pos
    · rw [if_pos hp] at h; omega
    · rw [if_neg hp] at h
      rw [if_neg hp]
      exact ih (pos + 1) (by omega)

theorem scanPresent_lt (mask : Option (List Bool)) :
    ∀ n pos, scanPresent mask pos n < pos + n →
      isPresent mask (scanPresent mask pos n) = true ∧
      presentPositions mask pos n
        = scanPresent mask pos n
            :: presentPositions mask (scanPresent mask pos n + 1)
                 (pos + n - (scanPresent mask pos n + 1)) := by
  intro n
  induction n with
  | zero => intro pos h; simp [scanPresent] at h
  | succ n ih =>
    intro pos h
    unfold scanPresent at h ⊢
    rw [presentPositions_succ]
    by_cases hp : isPresent mask pos
    · rw [if_pos hp] at h ⊢
      rw [if_pos hp]
      refine ⟨hp, ?_⟩
      have harg : pos + (n + 1) - (pos + 1) = n := by omega
      rw [harg]
    · rw [if_neg hp] at h ⊢
      rw [if_neg hp]
      have hrec := ih (pos + 1) (by omega)
      refine ⟨hrec.1, ?_⟩
      rw [hrec.2]
      have harg : pos + (n + 1) - (scanPresent mask (pos + 1) n + 1)
          = pos + 1 + n - (scanPresent mask (pos + 1) n + 1) := by omega
      rw [harg]

theorem writeSeq_nil_ps (data : List Nat) (vs : List Nat) : writeSeq data [] vs = data := by
  cases vs <;> rfl

theorem writeSeq_length : ∀ (ps : List Nat) (data vs : List Nat),
    (writeSeq data ps vs).length = data.length := by
  intro ps
  induction ps with
  | nil => intro data vs; rw [writeSeq_nil_ps]
  | cons p ps ih =>
    intro data vs
    cases vs with
    | nil => rfl
    | cons v vs =>
      unfold writeSeq
      rw [ih, List.length_set]

theorem writeSeq_getD_notin : ∀ (ps : List Nat) (data vs : List Nat) (q : Nat),
    q ∉ ps → (writeSeq data ps vs).getD q 0 = data.getD q 0 := by
  intro ps
  induction ps with
  | nil => intro data vs q _; rw [writeSeq_nil_ps]
  | cons p ps ih =>
    intro data vs q hq
    cases vs with
    | nil => rfl
    | cons v vs =>
      unfold writeSeq
      rw [ih _ _ _ (fun h => hq (List.mem_cons.mpr (Or.inr h)))]
      simp only [List.getD_eq_getElem?_getD]
      rw [List.getElem?_set_ne (fun h => hq (List.mem_cons.mpr (Or.inl h.symm)))]

theorem writeSeq_set_comm : ∀ (ps : List Nat) (data vs : List Nat) (q v : Nat),
    q ∉ ps → (writeSeq data ps vs).set q v = writeSeq (data.set q v) ps vs := by
  intro ps
  induction ps with
  | nil => intro data vs q v _; rw [writeSeq_nil_ps, writeSeq_nil_ps]
  | cons p ps ih =>
    intro data vs q v hq
    cases vs with
    | nil => rfl
    | cons w vs =>
      unfold writeSeq
      rw [ih _ _ _ _ (fun h => hq (List.mem_cons.mpr (Or.inr h)))]
      rw [List.set_comm _ _ _ (fun h => hq (List.mem_cons.mpr (Or.inl h.symm)))]

-- ### loop characterisations

theorem writeSeq_cons (data : List Nat) (p : Nat) (ps : List Nat) (v : Nat) (vs : List Nat) :
    writeSeq data (p :: ps) (v :: vs) = writeSeq (data.set p v) ps vs := rfl

theorem readLongsGo_writeSeq (fb : Nat) (mask : Option (List Bool)) :
    ∀ (n pos : Nat) (data : List Nat) (cb bl : Nat) (bs : Bytes) (ret : Nat),
      readLongsGo fb mask n pos data cb bl bs ret
        = (readValuesGo fb (countPresent mask pos n) cb bl bs).map
            (fun r => (writeSeq data (presentPositions mask pos n) r.1,
                       ret + countPresent mask pos n, r.2.1, r.2.2.1, r.2.2.2)) := by
  intro n
  induction n with
  | zero =>
    intro pos data cb bl bs ret
    rfl
  | succ n ih =>
    intro pos data cb bl bs ret
    by_cases hp : isPresent mask pos
    · rw [countPresent_cons_present n hp]
      unfold readLongsGo
      rw [if_pos hp, presentPositions_succ, if_pos hp]
      unfold readValuesGo
      cases hrb : readBits fb cb bl bs with
      | error e => rfl
      | ok r =>
        obtain ⟨v, cb1, bl1, bs1⟩ := r
        dsimp only
        rw [ih (pos + 1) (data.set pos v) cb1 bl1 bs1 (ret + 1)]
        cases hrv : readValuesGo fb (countPresent mask (pos + 1) n) cb1 bl1 bs1 with
        | error e => rfl
        | ok r2 =>
          obtain ⟨vs, cb2, bl2, bs2⟩ := r2
          simp only [Except.map]
          rw [writeSeq_cons]
          have harith : ret + 1 + countPresent mask (pos + 1) n
              = ret + (countPresent mask (pos + 1) n + 1) := by omega
          rw [harith]
    · have hp' : isPresent mask pos = false := by simpa using hp
      rw [countPresent_cons_null n hp']
      unfold readLongsGo
      rw [if_neg hp, presentPositions_succ, if_neg hp]
      exact ih (pos + 1) data cb bl bs ret

theorem deltaFixedEmit_run (mask : Option (List Bool)) :
    ∀ (n pos : Nat) (s : RleState) (data : List Nat),
      deltaFixedEmit mask n pos s data
        = ((deltaFixedRun s (countPresent mask pos n)).1,
           writeSeq data (presentPositions mask pos n)
             (deltaFixedRun s (countPresent mask pos n)).2) := by
  intro n
  induction n with
  | zero =>
    intro pos s data
    rfl
  | succ n ih =>
    intro pos s data
    by_cases hp : isPresent mask pos
    · rw [countPresent_cons_present n hp]
      unfold deltaFixedEmit
      rw [if_pos hp, presentPositions_succ, if_pos hp]
      have hrun : deltaFixedRun s (countPresent mask (pos + 1) n + 1)
          = ((deltaFixedRun
                { s with prevValue := add64 s.prevValue s.deltaBase,
                         runRead := s.runRead + 1 } (countPresent mask (pos + 1) n)).1,
             add64 s.prevValue s.deltaBase
               :: (deltaFixedRun
                    { s with prevValue := add64 s.prevValue s.deltaBase,
                             runRead := s.runRead + 1 } (countPresent mask (pos + 1) n)).2) := rfl
      rw [hrun, writeSeq_cons]
      exact ih (pos + 1) _ (data.set pos (add64 s.prevValue s.deltaBase))
    · have hp' : isPresent mask pos = false := by simpa using hp
      rw [countPresent_cons_null n hp']
      unfold deltaFixedEmit
      rw [if_neg hp, presentPositions_succ, if_neg hp]
      exact ih (pos + 1) s data

theorem getD_set_self_nat (data : List Nat) (p v : Nat) (h : p < data.length) :
    (data.set p v).getD p 0 = v := by
  simp [List.getD_eq_getElem?_getD, List.getElem?_set_self', h]

theorem deltaAccumEmit_run (negative : Bool) (mask : Option (List Bool)) :
    ∀ (n pos : Nat) (ds : List Nat) (s : RleState) (data : List Nat),
      ds.length = countPresent mask pos n →
      (∀ q ∈ presentPositions mask pos n, q < data.length) →
      deltaAccumEmit negative mask n pos s (writeSeq data (presentPositions mask pos n) ds)
        = ((deltaAccumRun negative s ds).1,
           writeSeq data (presentPositions mask pos n) (deltaAccumRun negative s ds).2) := by
  intro n
  induction n with
  | zero =>
    intro pos ds s data hlen _
    have hds : ds = [] := List.eq_nil_of_length_eq_zero hlen
    subst hds
    rfl
  | succ n ih =>
    intro pos ds s data hlen hbnd
    by_cases hp : isPresent mask pos
    · rw [presentPositions_succ, if_pos hp] at hbnd ⊢
      rw [countPresent_cons_present n hp] at hlen
      cases ds with
      | nil => simp at hlen
      | cons d ds =>
        have hlen' : ds.length = countPresent mask (pos + 1) n := by
          simpa using hlen
        have hposn : pos ∉ presentPositions mask (pos + 1) n := by
          intro hmem
          have := presentPositions_mem_bounds mask n (pos + 1) pos hmem
          omega
        have hposd : pos < data.length := hbnd pos (List.mem_cons_self _ _)
        rw [writeSeq_cons]
        unfold deltaAccumEmit
        rw [if_pos hp]
        have hread : (writeSeq (data.set pos d) (presentPositions mask (pos + 1) n) ds).getD pos 0 = d := by
          rw [writeSeq_getD_notin _ _ _ _ hposn]
          exact getD_set_self_nat data pos d hposd
        rw [hread]
        dsimp only
        have hsetcomm :
            (writeSeq (data.set pos d) (presentPositions mask (pos + 1) n) ds).set pos
                (if negative then sub64 s.prevValue d else add64 s.prevValue d)
              = writeSeq (data.set pos (if negative then sub64 s.prevValue d else add64 s.prevValue d))
                  (presentPositions mask (pos + 1) n) ds := by
          rw [writeSeq_set_comm _ _ _ _ _ hposn, List.set_set]
        rw [hsetcomm]
        have hbnd' : ∀ q ∈ presentPositions mask (pos + 1) n,
            q < (data.set pos (if negative then sub64 s.prevValue d else add64 s.prevValue d)).length := by
          intro q hq
          rw [List.length_set]
          exact hbnd q (List.mem_cons_of_mem _ hq)
        have := ih (pos + 1) ds
          { s with prevValue := if negative then sub64 s.prevValue d else add64 s.prevValue d }
          (data.set pos (if negative then sub64 s.prevValue d else add64 s.prevValue d))
          hlen' hbnd'
        rw [this]
        have hrun : deltaAccumRun negative s (d :: ds)
            = ((deltaAccumRun negative
                  { s with prevValue := if negative then sub64 s.prevValue d else add64 s.prevValue d } ds).1,
               (if negative then sub64 s.prevValue d else add64 s.prevValue d)
                 :: (deltaAccumRun negative
                      { s with prevValue := if negative then sub64 s.prevValue d else add64 s.prevValue d } ds).2) := rfl
        rw [hrun, writeSeq_cons]
    · have hp' : isPresent mask pos = false := by simpa using hp
      rw [presentPositions_succ, if_neg hp] at hbnd ⊢
      rw [countPresent_cons_null n hp'] at hlen
      unfold deltaAccumEmit
      rw [if_neg hp]
      exact ih (pos + 1) ds s data hlen hbnd

theorem readValuesGo_length (fb : Nat) :
    ∀ (k cb bl : Nat) (bs : Bytes) (vs : List Nat) (cb2 bl2 : Nat) (bs2 : Bytes),
      readValuesGo fb k cb bl bs = .ok (vs, cb2, bl2, bs2) → vs.length = k := by
  intro k
  induction k with
  | zero =>
    intro cb bl bs vs cb2 bl2 bs2 h
    unfold readValuesGo at h
    cases h
    rfl
  | succ k ih =>
    intro cb bl bs vs cb2 bl2 bs2 h
    unfold readValuesGo at h
    cases hrb : readBits fb cb bl bs with
    | error e => rw [hrb] at h; cases h
    | ok r =>
      obtain ⟨v, cb1, bl1, bs1⟩ := r
      rw [hrb] at h
      dsimp only at h
      cases hrv : readValuesGo fb k cb1 bl1 bs1 with
      | error e => rw [hrv] at h; cases h
      | ok r2 =>
        obtain ⟨vs1, cbx, blx, bsx⟩ := r2
        rw [hrv] at h
        dsimp only at h
        cases h
        simp only [List.length_cons]
        exact congrArg (· + 1) (ih _ _ _ _ _ _ _ hrv)

theorem deltaUnpackTail_run (mask : Option (List Bool)) (s : RleState) (data : List Nat)
    (pos endPos : Nat) (hpe : pos ≤ endPos) (hb : endPos ≤ data.length) :
    deltaUnpackTail s data pos endPos mask
      = (deltaRunTail s (countPresent mask pos (endPos - pos))).map
          (fun r => (r.1, writeSeq data (presentPositions mask pos (endPos - pos)) r.2)) := by
  have hq_le := scanPresent_le mask (endPos - pos) pos
  rcases Nat.lt_or_ge (scanPresent mask pos (endPos - pos)) (pos + (endPos - pos)) with hqlt | hqge
  · -- a present slot exists in the window
    obtain ⟨hqp, hP⟩ := scanPresent_lt mask (endPos - pos) pos hqlt
    have hqend : scanPresent mask pos (endPos - pos) < endPos := by omega
    set q := scanPresent mask pos (endPos - pos) with hqdef
    have hcnt : countPresent mask pos (endPos - pos)
        = countPresent mask (q + 1) (pos + (endPos - pos) - (q + 1)) + 1 := by
      unfold countPresent
      rw [hP]
      simp
    by_cases hr2 : s.runRead < 2
    · -- the second-value branch fires
      unfold deltaUnpackTail
      rw [← hqdef]
      dsimp only
      rw [if_pos ⟨hr2, hqend⟩]
      dsimp only
      unfold deltaRunTail
      rw [hcnt]
      dsimp only
      rw [if_pos ⟨hr2, Nat.succ_pos _⟩]
      dsimp only
      have harem : endPos - (q + 1) = pos + (endPos - pos) - (q + 1) := by omega
      unfold readLongs
      rw [harem, readLongsGo_writeSeq]
      simp only [Nat.add_sub_cancel]
      cases hrv : readValuesGo s.bitSize
          (countPresent mask (q + 1) (pos + (endPos - pos) - (q + 1)))
          s.curByte s.bitsLeft s.input with
      | error e => rfl
      | ok rv =>
        obtain ⟨ds, cb2, bl2, bs2⟩ := rv
        simp only [Except.map]
        have hdslen : ds.length = countPresent mask (q + 1) (pos + (endPos - pos) - (q + 1)) :=
          readValuesGo_length _ _ _ _ _ _ _ _ _ hrv
        have hbnd : ∀ x ∈ presentPositions mask (q + 1) (pos + (endPos - pos) - (q + 1)),
            x < (data.set q (add64 s.firstValue s.deltaBase)).length := by
          intro x hx
          have := presentPositions_mem_bounds mask _ _ x hx
          rw [List.length_set]
          omega
        rw [Nat.zero_add]
        rw [deltaAccumEmit_run _ mask _ _ ds _ _ hdslen hbnd]
        dsimp only
        rw [hP]
        simp only [List.singleton_append]
        rw [writeSeq_cons]
    · -- runRead ≥ 2: no second value
      unfold deltaUnpackTail
      rw [← hqdef]
      dsimp only
      rw [if_neg (by intro hand; exact hr2 hand.1)]
      dsimp only
      unfold deltaRunTail
      dsimp only
      rw [if_neg (by intro hand; exact hr2 hand.1)]
      dsimp only
      have hqwin : 0 < endPos - q := by omega
      have hwin : endPos - q = (pos + (endPos - pos) - (q + 1)) + 1 := by omega
      have hPq : presentPositions mask q (endPos - q)
          = q :: presentPositions mask (q + 1) (pos + (endPos - pos) - (q + 1)) := by
        rw [hwin, presentPositions_succ, if_pos hqp]
      have hcq : countPresent mask q (endPos - q) = countPresent mask pos (endPos - pos) := by
        unfold countPresent
        rw [hPq, hP]
      unfold readLongs
      rw [readLongsGo_writeSeq]
      rw [hcq, hPq, ← hP]
      cases hrv : readValuesGo s.bitSize (countPresent mask pos (endPos - pos))
          s.curByte s.bitsLeft s.input with
      | error e => rfl
      | ok rv =>
        obtain ⟨ds, cb2, bl2, bs2⟩ := rv
        simp only [Except.map]
        have hdslen : ds.length = countPresent mask pos (endPos - pos) :=
          readValuesGo_length _ _ _ _ _ _ _ _ _ hrv
        have hbnd : ∀ x ∈ presentPositions mask q (endPos - q), x < data.length := by
          intro x hx
          have := presentPositions_mem_bounds mask _ _ x hx
          omega
        rw [Nat.zero_add]
        have hcq2 : ds.length = countPresent mask q (endPos - q) := by rw [hcq, hdslen]
        have hacc := deltaAccumEmit_run (decide (sInt64 s.deltaBase < 0)) mask (endPos - q) q ds
          { s with runRead := s.runRead + countPresent mask pos (endPos - pos),
                   curByte := cb2, bitsLeft := bl2, input := bs2 } data hcq2 hbnd
        rw [hPq, ← hP] at hacc
        rw [hacc]
        rfl
  · -- no present slot: the window contributes nothing
    have hqe : scanPresent mask pos (endPos - pos) = pos + (endPos - pos) := by omega
    have hP : presentPositions mask pos (endPos - pos) = [] :=
      scanPresent_eq_end mask (endPos - pos) pos hqe
    have hc : countPresent mask pos (endPos - pos) = 0 := by
      unfold countPresent
      rw [hP]
      rfl
    have hqend : pos + (endPos - pos) = endPos := by omega
    unfold deltaUnpackTail
    rw [hqe, hqend]
    dsimp only
    rw [if_neg (by intro hand; exact absurd hand.2 (lt_irrefl endPos))]
    dsimp only
    unfold deltaRunTail
    rw [hc]
    dsimp only
    rw [if_neg (by intro hand; exact absurd hand.2 (lt_irrefl 0))]
    dsimp only
    rw [Nat.sub_self]
    rw [hP]
    rfl

theorem presentPositions_drop_nulls (mask : Option (List Bool)) (n pos : Nat)
    (h : scanPresent mask pos n < pos + n) :
    presentPositions mask pos n
      = presentPositions mask (scanPresent mask pos n)
          (pos + n - scanPresent mask pos n) := by
  obtain ⟨hqp, hP⟩ := scanPresent_lt mask n pos h
  have hge := scanPresent_ge mask n pos
  have hwin : pos + n - scanPresent mask pos n
      = (pos + n - (scanPresent mask pos n + 1)) + 1 := by omega
  rw [hP, hwin, presentPositions_succ, if_pos hqp]

theorem nextDelta_run (mask : Option (List Bool)) (s s₁ : RleState) (data : List Nat)
    (offset n : Nat)
    (hs1 : (if s.runRead = s.runLength then deltaParseHeader s else Except.ok s) = .ok s₁)
    (hb : offset + n ≤ data.length) :
    nextDelta s data offset n mask
      = (deltaRun s₁ (countPresent mask offset (min (s₁.runLength - s₁.runRead) n))).map
          (fun r => (min (s₁.runLength - s₁.runRead) n, r.1,
                     writeSeq data
                       (presentPositions mask offset (min (s₁.runLength - s₁.runRead) n))
                       r.2)) := by
  have hKn : min (s₁.runLength - s₁.runRead) n ≤ n := Nat.min_le_right _ _
  unfold nextDelta
  rw [hs1]
  dsimp only
  have hq_le := scanPresent_le mask (min (s₁.runLength - s₁.runRead) n) offset
  have hq_ge := scanPresent_ge mask (min (s₁.runLength - s₁.runRead) n) offset
  rcases Nat.lt_or_ge (scanPresent mask offset (min (s₁.runLength - s₁.runRead) n))
      (offset + min (s₁.runLength - s₁.runRead) n) with hqlt | hqge
  · -- at least one present slot in the window
    obtain ⟨hqp, hP⟩ := scanPresent_lt mask (min (s₁.runLength - s₁.runRead) n) offset hqlt
    have hcnt : countPresent mask offset (min (s₁.runLength - s₁.runRead) n)
        = countPresent mask (scanPresent mask offset (min (s₁.runLength - s₁.runRead) n) + 1)
            (offset + min (s₁.runLength - s₁.runRead) n
              - (scanPresent mask offset (min (s₁.runLength - s₁.runRead) n) + 1)) + 1 := by
      unfold countPresent
      rw [hP]
      simp
    by_cases hr0 : s₁.runRead = 0
    · have hcond : s₁.runRead = 0 ∧
          scanPresent mask offset (min (s₁.runLength - s₁.runRead) n)
            < offset + min (s₁.runLength - s₁.runRead) n := ⟨hr0, hqlt⟩
      rw [if_pos hcond]
      dsimp only
      unfold deltaRun
      rw [hcnt]
      dsimp only
      have hcondR : s₁.runRead = 0 ∧
          0 < countPresent mask
                (scanPresent mask offset (min (s₁.runLength - s₁.runRead) n) + 1)
                (offset + min (s₁.runLength - s₁.runRead) n
                  - (scanPresent mask offset (min (s₁.runLength - s₁.runRead) n) + 1)) + 1 :=
        ⟨hr0, Nat.succ_pos _⟩
      rw [if_pos hcondR]
      dsimp only
      by_cases hbz : s₁.bitSize = 0
      · rw [if_pos hbz, if_pos hbz]
        rw [deltaFixedEmit_run]
        rw [hP]
        simp only [Except.map, List.singleton_append]
        rw [writeSeq_cons]
        rfl
      · rw [if_neg hbz, if_neg hbz]
        rw [deltaUnpackTail_run mask _ _ _ _ (by omega)
              (by rw [List.length_set]; omega)]
        rw [Nat.add_sub_cancel]
        cases hrt : deltaRunTail { s₁ with runRead := 1 }
            (countPresent mask
              (scanPresent mask offset (min (s₁.runLength - s₁.runRead) n) + 1)
              (offset + min (s₁.runLength - s₁.runRead) n
                - (scanPresent mask offset (min (s₁.runLength - s₁.runRead) n) + 1))) with
        | error e => rfl
        | ok r =>
          obtain ⟨s₂, vs⟩ := r
          rw [hP]
          simp only [Except.map, List.singleton_append]
          rw [writeSeq_cons]
    · have hcond : ¬(s₁.runRead = 0 ∧
          scanPresent mask offset (min (s₁.runLength - s₁.runRead) n)
            < offset + min (s₁.runLength - s₁.runRead) n) := by
        intro hand
        exact hr0 hand.1
      rw [if_neg hcond]
      dsimp only
      have hPd := presentPositions_drop_nulls mask (min (s₁.runLength - s₁.runRead) n) offset hqlt
      have hcd : countPresent mask offset (min (s₁.runLength - s₁.runRead) n)
          = countPresent mask (scanPresent mask offset (min (s₁.runLength - s₁.runRead) n))
              (offset + min (s₁.runLength - s₁.runRead) n
                - scanPresent mask offset (min (s₁.runLength - s₁.runRead) n)) := by
        unfold countPresent
        rw [hPd]
      unfold deltaRun
      dsimp only
      have hcond2 : ¬(s₁.runRead = 0 ∧
          0 < countPresent mask offset (min (s₁.runLength - s₁.runRead) n)) := by
        intro hand
        exact hr0 hand.1
      rw [if_neg hcond2]
      dsimp only
      by_cases hbz : s₁.bitSize = 0
      · rw [if_pos hbz, if_pos hbz]
        rw [deltaFixedEmit_run]
        rw [← hcd, ← hPd]
        simp only [Except.map, List.nil_append]
      · rw [if_neg hbz, if_neg hbz]
        rw [deltaUnpackTail_run mask _ _ _ _ (by omega) (by omega)]
        rw [← hcd, ← hPd]
        cases hrt : deltaRunTail s₁
            (countPresent mask offset (min (s₁.runLength - s₁.runRead) n)) with
        | error e => rfl
        | ok r =>
          obtain ⟨s₂, vs⟩ := r
          simp only [Except.map, List.nil_append]
  · -- no present slot in the window
    have hqe : scanPresent mask offset (min (s₁.runLength - s₁.runRead) n)
        = offset + min (s₁.runLength - s₁.runRead) n := by omega
    have hP : presentPositions mask offset (min (s₁.runLength - s₁.runRead) n) = [] :=
      scanPresent_eq_end mask _ _ hqe
    have hc : countPresent mask offset (min (s₁.runLength - s₁.runRead) n) = 0 := by
      unfold countPresent
      rw [hP]
      rfl
    have hcond : ¬(s₁.runRead = 0 ∧
        scanPresent mask offset (min (s₁.runLength - s₁.runRead) n)
          < offset + min (s₁.runLength - s₁.runRead) n) := by
      intro hand
      omega
    rw [if_neg hcond]
    dsimp only
    unfold deltaRun
    rw [hc]
    dsimp only
    have hcond2 : ¬(s₁.runRead = 0 ∧ 0 < 0) := by
      intro hand
      exact absurd hand.2 (lt_irrefl 0)
    rw [if_neg hcond2]
    dsimp only
    rw [hqe]
    by_cases hbz : s₁.bitSize = 0
    · rw [if_pos hbz, if_pos hbz]
      rw [Nat.sub_self]
      rw [hP]
      rfl
    · rw [if_neg hbz, if_neg hbz]
      rw [deltaUnpackTail_run mask _ _ _ _ (le_refl _) (by omega)]
      rw [Nat.sub_self]
      have hc0 : countPresent mask (offset + min (s₁.runLength - s₁.runRead) n) 0 = 0 := rfl
      rw [hc0]
      have hp0 : presentPositions mask (offset + min (s₁.runLength - s₁.runRead) n) 0 = [] := rfl
      rw [hp0, hP]
      cases hrt : deltaRunTail s₁ 0 with
      | error e => rfl
      | ok r =>
        obtain ⟨s₂, vs⟩ := r
        simp only [Except.map, List.nil_append]

theorem presentPositions_none : ∀ (n pos : Nat),
    presentPositions none pos n = List.range' pos n := by
  intro n
  induction n with
  | zero => intro pos; rfl
  | succ n ih =>
    intro pos
    unfold presentPositions
    have hp : isPresent none pos = true := rfl
    rw [hp]
    rw [if_pos rfl]
    rw [ih]
    rfl

/-- C10: inside a DELTA run read with a notNull mask, a null slot consumes
no compressed input and does not advance the accumulated previous value:
the masked read agrees (in error behaviour and in final decoder state,
hence in input consumption and `prevValue`) with an unmasked read of
exactly the run's present count, the masked read writes precisely the
unmasked value sequence at the present positions, and every other slot of
the destination buffer is untouched. -/
theorem nextDelta_null_rows (m : List Bool) (s s₁ : RleState)
    (data data₂ : List Nat) (offset offset₂ n K k : Nat)
    (hs1 : (if s.runRead = s.runLength then deltaParseHeader s else Except.ok s) = .ok s₁)
    (hK : K = min (s₁.runLength - s₁.runRead) n)
    (hk : k = countPresent (some m) offset K)
    (hb : offset + n ≤ data.length)
    (hb₂ : offset₂ + k ≤ data₂.length) :
    (nextDelta s data offset n (some m)).map (fun t => t.2.1)
      = (nextDelta s data₂ offset₂ k none).map (fun t => t.2.1)
    ∧ ∀ s' dOut, nextDelta s data offset n (some m) = .ok (K, s', dOut) →
        ∃ vals, dOut = writeSeq data (presentPositions (some m) offset K) vals
          ∧ nextDelta s data₂ offset₂ k none
              = .ok (k, s', writeSeq data₂ (List.range' offset₂ k) vals)
          ∧ ∀ j, j ∉ presentPositions (some m) offset K →
              dOut.getD j 0 = data.getD j 0 := by
  have hkK : countPresent (some m) offset K ≤ K := by
    rw [hK]
    exact countPresent_le _ _ _
  have hKav : K ≤ s₁.runLength - s₁.runRead := by
    rw [hK]
    exact Nat.min_le_left _ _
  have hmin2 : min (s₁.runLength - s₁.runRead) k = k := by omega
  have E1 := nextDelta_run (some m) s s₁ data offset n hs1 hb
  have E2 := nextDelta_run none s s₁ data₂ offset₂ k hs1 hb₂
  rw [hmin2, countPresent_none, presentPositions_none] at E2
  rw [← hK] at E1
  rw [← hk] at E1
  constructor
  · rw [E1, E2]
    cases hD : deltaRun s₁ k with
    | error e => rfl
    | ok r => rfl
  · intro s' dOut h
    rw [E1] at h
    cases hD : deltaRun s₁ k with
    | error e =>
      rw [hD] at h
      exact absurd h (by simp [Except.map])
    | ok r =>
      obtain ⟨s₂, vs⟩ := r
      rw [hD] at h
      simp only [Except.map, Except.ok.injEq, Prod.mk.injEq] at h
      obtain ⟨-, hs', hd⟩ := h
      refine ⟨vs, hd.symm, ?_, ?_⟩
      · rw [E2, hD]
        simp only [Except.map]
        rw [hs']
      · intro j hj
        rw [← hd]
        exact writeSeq_getD_notin _ _ _ _ hj


theorem nextDelta_null_rows_witness :
    (nextDelta c10State [0, 0, 0] 0 3 (some [true, false, true])).map (fun t => t.2.1)
      = (nextDelta c10State [0] 0 1 none).map (fun t => t.2.1)
    ∧ ∀ s' dOut,
        nextDelta c10State [0, 0, 0] 0 3 (some [true, false, true]) = .ok (2, s', dOut) →
        ∃ vals, dOut = writeSeq [0, 0, 0] (presentPositions (some [true, false, true]) 0 2) vals
          ∧ nextDelta c10State [0] 0 1 none
              = .ok (1, s', writeSeq [0] (List.range' 0 1) vals)
          ∧ ∀ j, j ∉ presentPositions (some [true, false, true]) 0 2 →
              dOut.getD j 0 = ([0, 0, 0] : List Nat).getD j 0 :=
  nextDelta_null_rows [true, false, true] c10State c10State [0, 0, 0] [0] 0 0 3 2 1
    rfl (by decide) (by decide) (by decide) (by decide)


/-! ## C8: skip as decode-and-discard -/

theorem iterateE_add (f : RleState → Except OrcErr RleState) :
    ∀ (a b : Nat) (s : RleState),
      iterateE f (a + b) s
        = match iterateE f a s with
          | .error e => .error e
          | .ok s => iterateE f b s := by
  intro a
  induction a with
  | zero =>
    intro b s
    rw [Nat.zero_add]
    rfl
  | succ a ih =>
    intro b s
    have hrw : a + 1 + b = (a + b) + 1 := by omega
    rw [hrw]
    show (match f s with
          | Except.error e => Except.error e
          | Except.ok s₂ => iterateE f (a + b) s₂)
        = match (match f s with
                 | Except.error e => Except.error e
                 | Except.ok s₂ => iterateE f a s₂) with
          | Except.error e => Except.error e
          | Except.ok s₂ => iterateE f b s₂
    cases hf : f s with
    | error e => rfl
    | ok s₂ => exact ih b s₂

theorem stepStateOf_post (enc : EncodingType) (s s₂ : RleState)
    (h : stepStateOf enc s = .ok s₂) :
    s₂.runRead = s.runRead + 1 ∧ s₂.runLength = s.runLength
      ∧ s₂.firstByte = s.firstByte := by
  cases enc with
  | SHORT_REPEAT =>
    simp only [stepStateOf, srStepState, Except.ok.injEq] at h
    rw [← h]
    exact ⟨rfl, rfl, rfl⟩
  | DIRECT =>
    simp only [stepStateOf, directStepState] at h
    cases hr : readBits s.bitSize s.curByte s.bitsLeft s.input with
    | error e => rw [hr] at h; exact absurd h (by simp)
    | ok r =>
      obtain ⟨v, cb, bl, bs⟩ := r
      rw [hr] at h
      simp only [Except.ok.injEq] at h
      rw [← h]
      exact ⟨rfl, rfl, rfl⟩
  | PATCHED_BASE =>
    simp only [stepStateOf, Except.ok.injEq] at h
    rw [← h]
    unfold patchedStepState
    by_cases hg : s.unpackedIdx ≠ s.actualGap
    · rw [if_pos hg]
      exact ⟨rfl, rfl, rfl⟩
    · rw [if_neg hg]
      dsimp only
      by_cases hp : s.patchIdx + 1 < s.unpackedPatch.length
      · rw [if_pos hp]
        exact ⟨rfl, rfl, rfl⟩
      · rw [if_neg hp]
        exact ⟨rfl, rfl, rfl⟩
  | DELTA =>
    simp only [stepStateOf, deltaStepState] at h
    by_cases h0 : s.runRead = 0
    · rw [if_pos h0] at h
      simp only [Except.ok.injEq] at h
      rw [← h]
      exact ⟨h0.symm ▸ rfl, rfl, rfl⟩
    · rw [if_neg h0] at h
      by_cases hbz : s.bitSize = 0
      · rw [if_pos hbz] at h
        simp only [Except.ok.injEq] at h
        rw [← h]
        exact ⟨rfl, rfl, rfl⟩
      · rw [if_neg hbz] at h
        by_cases h2 : s.runRead < 2
        · rw [if_pos h2] at h
          simp only [Except.ok.injEq] at h
          rw [← h]
          exact ⟨rfl, rfl, rfl⟩
        · rw [if_neg h2] at h
          cases hr : readBits s.bitSize s.curByte s.bitsLeft s.input with
          | error e => rw [hr] at h; exact absurd h (by simp)
          | ok r =>
            obtain ⟨v, cb, bl, bs⟩ := r
            rw [hr] at h
            simp only [Except.ok.injEq] at h
            rw [← h]
            exact ⟨rfl, rfl, rfl⟩

theorem parseHeaderOf_post (enc : EncodingType) (s s₁ : RleState)
    (h : parseHeaderOf enc s = .ok s₁) :
    s₁.runRead = 0 ∧ 1 ≤ s₁.runLength ∧ s₁.firstByte = s.firstByte := by
  cases enc with
  | SHORT_REPEAT =>
    simp only [parseHeaderOf, shortRepeatParseHeader] at h
    cases hr : readLongBEB (((s.firstByte >>> 3) &&& 0x07) + 1) s.input with
    | error e => rw [hr] at h; exact absurd h (by simp)
    | ok r =>
      obtain ⟨v, input⟩ := r
      rw [hr] at h
      simp only [Except.ok.injEq] at h
      rw [← h]
      exact ⟨rfl, by simp, rfl⟩
  | DIRECT =>
    simp only [parseHeaderOf, directParseHeader] at h
    cases hr : readByteB s.input with
    | error e => rw [hr] at h; exact absurd h (by simp)
    | ok r =>
      obtain ⟨rb, input⟩ := r
      rw [hr] at h
      simp only [Except.ok.injEq] at h
      rw [← h]
      exact ⟨rfl, by simp, rfl⟩
  | PATCHED_BASE =>
    simp only [parseHeaderOf, patchedParseHeader] at h
    cases hr : readByteB s.input with
    | error e => rw [hr] at h; exact absurd h (by simp)
    | ok r =>
      obtain ⟨rb, input⟩ := r
      rw [hr] at h
      dsimp only at h
      cases hr2 : readByteB input with
      | error e => rw [hr2] at h; exact absurd h (by simp)
      | ok r2 =>
        obtain ⟨tb, input2⟩ := r2
        rw [hr2] at h
        dsimp only at h
        cases hr3 : readByteB input2 with
        | error e => rw [hr3] at h; exact absurd h (by simp)
        | ok r3 =>
          obtain ⟨fb4, input3⟩ := r3
          rw [hr3] at h
          dsimp only at h
          cases hr4 : readLongBEB (((tb >>> 5) &&& 0x07) + 1) input3 with
          | error e => rw [hr4] at h; exact absurd h (by simp)
          | ok r4 =>
            obtain ⟨baseRaw, input4⟩ := r4
            rw [hr4] at h
            dsimp only at h
            cases hr5 : readLongs
                (List.replicate ((((s.firstByte &&& 0x01) <<< 8) ||| rb) + 1) 0) 0
                ((((s.firstByte &&& 0x01) <<< 8) ||| rb) + 1)
                (decodeBitWidth ((s.firstByte >>> 1) &&& 0x1f)) none
                s.curByte s.bitsLeft input4 with
            | error e => rw [hr5] at h; exact absurd h (by simp)
            | ok r5 =>
              obtain ⟨unp, ret5, cb5, bl5, input5⟩ := r5
              rw [hr5] at h
              dsimp only at h
              by_cases hbig : 64 < decodeBitWidth (tb &&& 0x1f) + ((((fb4 >>> 5) &&& 0x07) + 1))
              · rw [if_pos hbig] at h
                exact absurd h (by simp)
              · rw [if_neg hbig] at h
                cases hr6 : readLongs (List.replicate (fb4 &&& 0x1f) 0) 0 (fb4 &&& 0x1f)
                    (getClosestFixedBits
                      (decodeBitWidth (tb &&& 0x1f) + ((((fb4 >>> 5) &&& 0x07) + 1))))
                    none cb5 0 input5 with
                | error e => rw [hr6] at h; exact absurd h (by simp)
                | ok r6 =>
                  obtain ⟨unpP, ret6, cb6, bl6, input6⟩ := r6
                  rw [hr6] at h
                  simp only [Except.ok.injEq] at h
                  rw [← h]
                  exact ⟨rfl, by simp, rfl⟩
  | DELTA =>
    simp only [parseHeaderOf, deltaParseHeader] at h
    cases hr : readByteB s.input with
    | error e => rw [hr] at h; exact absurd h (by simp)
    | ok r =>
      obtain ⟨rb, input⟩ := r
      rw [hr] at h
      dsimp only at h
      cases hr2 : (if s.isSigned then readVslongB input else readVulongB input) with
      | error e => rw [hr2] at h; exact absurd h (by simp)
      | ok r2 =>
        obtain ⟨fv, input2⟩ := r2
        rw [hr2] at h
        dsimp only at h
        cases hr3 : readVslongB input2 with
        | error e => rw [hr3] at h; exact absurd h (by simp)
        | ok r3 =>
          obtain ⟨db, input3⟩ := r3
          rw [hr3] at h
          simp only [Except.ok.injEq] at h
          rw [← h]
          exact ⟨rfl, by simp, rfl⟩

theorem iterateE_succ (f : RleState → Except OrcErr RleState) (n : Nat) (s : RleState) :
    iterateE f (n + 1) s
      = match f s with
        | .error e => .error e
        | .ok s₂ => iterateE f n s₂ := rfl

theorem iterateE_step_post (enc : EncodingType) :
    ∀ (n : Nat) (s s₂ : RleState), iterateE (stepStateOf enc) n s = .ok s₂ →
      s₂.runRead = s.runRead + n ∧ s₂.runLength = s.runLength
        ∧ s₂.firstByte = s.firstByte := by
  intro n
  induction n with
  | zero =>
    intro s s₂ h
    simp only [iterateE, Except.ok.injEq] at h
    rw [← h]
    exact ⟨rfl, rfl, rfl⟩
  | succ n ih =>
    intro s s₂ h
    rw [iterateE_succ] at h
    cases hf : stepStateOf enc s with
    | error e => rw [hf] at h; exact absurd h (by simp)
    | ok s₁ =>
      rw [hf] at h
      obtain ⟨h1, h2, h3⟩ := stepStateOf_post enc s s₁ hf
      obtain ⟨g1, g2, g3⟩ := ih s₁ s₂ h
      refine ⟨?_, by rw [g2, h2], by rw [g3, h3]⟩
      rw [g1, h1]
      omega

theorem valueStep_midrun (enc : EncodingType) :
    ∀ (n : Nat) (s : RleState), decodeEncoding s.firstByte = some enc →
      s.runRead + n ≤ s.runLength →
      iterateE valueStepState n s = iterateE (stepStateOf enc) n s := by
  intro n
  induction n with
  | zero => intro s _ _; rfl
  | succ n ih =>
    intro s henc hle
    have hne : ¬(s.runRead = s.runLength) := by omega
    have hval : valueStepState s = stepStateOf enc s := by
      unfold valueStepState
      rw [if_neg hne]
      dsimp only
      rw [henc]
      dsimp only
      rw [if_neg hne]
    rw [iterateE_succ, iterateE_succ, hval]
    cases hf : stepStateOf enc s with
    | error e => rfl
    | ok s₁ =>
      obtain ⟨h1, h2, h3⟩ := stepStateOf_post enc s s₁ hf
      exact ih s₁ (by rw [h3]; exact henc) (by omega)

theorem valueStep_header (s : RleState) (hdr : s.runRead = s.runLength) :
    valueStepState s
      = match readByteB s.input with
        | .error e => .error e
        | .ok (fb, input) =>
          match decodeEncoding fb with
          | some enc =>
            match parseHeaderOf enc { s with firstByte := fb, input := input } with
            | .error e => .error e
            | .ok s₁ => stepStateOf enc s₁
          | none => .error (.parseError "unknown encoding") := by
  unfold valueStepState
  rw [if_pos hdr]
  cases hb : readByteB s.input with
  | error e => rfl
  | ok r =>
    obtain ⟨fb, input⟩ := r
    dsimp only
    cases hde : decodeEncoding fb with
    | none => rfl
    | some enc =>
      dsimp only
      rw [if_pos hdr]

-- ### SHORT_REPEAT chunks

theorem shortRepeatEmit_ret (fv : Nat) :
    ∀ (n pos : Nat) (data : List Nat) (r : Nat),
      (shortRepeatEmit fv none n pos data r).2 = r + n := by
  intro n
  induction n with
  | zero => intro pos data r; rfl
  | succ n ih =>
    intro pos data r
    unfold shortRepeatEmit
    have hp : isPresent none pos = true := rfl
    rw [hp, if_pos rfl]
    rw [ih]
    omega

theorem iterateE_sr : ∀ (n : Nat) (s : RleState),
    iterateE (stepStateOf .SHORT_REPEAT) n s = .ok { s with runRead := s.runRead + n } := by
  intro n
  induction n with
  | zero => intro s; rfl
  | succ n ih =>
    intro s
    rw [iterateE_succ]
    show iterateE (stepStateOf .SHORT_REPEAT) n { s with runRead := s.runRead + 1 } = _
    rw [ih]
    have h : s.runRead + 1 + n = s.runRead + (n + 1) := by omega
    rw [h]

theorem nextShortRepeats_chunk (s : RleState) (data : List Nat) (offset len : Nat) :
    (nextShortRepeats s data offset len none).map (fun t => (t.1, t.2.1))
      = chunkStateOf .SHORT_REPEAT s len := by
  unfold nextShortRepeats chunkStateOf
  simp only [parseHeaderOf]
  cases hh : (if s.runRead = s.runLength then shortRepeatParseHeader s else Except.ok s) with
  | error e => rfl
  | ok s₁ =>
    dsimp only
    rw [iterateE_sr]
    dsimp only [Except.map]
    rw [shortRepeatEmit_ret]

-- ### DIRECT chunks

theorem readLongsGo_ret (fb : Nat) :
    ∀ (len pos : Nat) (data : List Nat) (cb bl : Nat) (bs : Bytes) (ret : Nat) r,
      readLongsGo fb none len pos data cb bl bs ret = .ok r → r.2.1 = ret + len := by
  intro len
  induction len with
  | zero =>
    intro pos data cb bl bs ret r h
    simp only [readLongsGo, Except.ok.injEq] at h
    rw [← h]
    rfl
  | succ len ih =>
    intro pos data cb bl bs ret r h
    unfold readLongsGo at h
    have hp : isPresent none pos = true := rfl
    rw [hp, if_pos rfl] at h
    cases hrb : readBits fb cb bl bs with
    | error e => rw [hrb] at h; exact absurd h (by simp)
    | ok q =>
      obtain ⟨v, cb2, bl2, bs2⟩ := q
      rw [hrb] at h
      dsimp only at h
      have := ih (pos + 1) (data.set pos v) cb2 bl2 bs2 (ret + 1) r h
      omega

theorem iterateE_direct :
    ∀ (len : Nat) (s : RleState) (pos : Nat) (data : List Nat) (ret : Nat),
      iterateE (stepStateOf .DIRECT) len s
        = (readLongsGo s.bitSize none len pos data s.curByte s.bitsLeft s.input ret).map
            (fun r => { s with runRead := s.runRead + len, curByte := r.2.2.1, bitsLeft := r.2.2.2.1, input := r.2.2.2.2 }) := by
  intro len
  induction len with
  | zero => intro s pos data ret; rfl
  | succ len ih =>
    intro s pos data ret
    rw [iterateE_succ]
    unfold readLongsGo
    have hp : isPresent none pos = true := rfl
    rw [hp, if_pos rfl]
    show (match directStepState s with
          | Except.error e => Except.error e
          | Except.ok s₂ => iterateE (stepStateOf .DIRECT) len s₂) = _
    unfold directStepState
    cases hrb : readBits s.bitSize s.curByte s.bitsLeft s.input with
    | error e => rfl
    | ok q =>
      obtain ⟨v, cb2, bl2, bs2⟩ := q
      dsimp only
      rw [ih _ (pos + 1) (data.set pos v) (ret + 1)]
      dsimp only
      have h : s.runRead + 1 + len = s.runRead + (len + 1) := by omega
      rw [h]

theorem nextDirect_chunk (s : RleState) (data : List Nat) (offset len : Nat) :
    (nextDirect s data offset len none).map (fun t => (t.1, t.2.1))
      = chunkStateOf .DIRECT s len := by
  unfold nextDirect chunkStateOf
  simp only [parseHeaderOf]
  cases hh : (if s.runRead = s.runLength then directParseHeader s else Except.ok s) with
  | error e => rfl
  | ok s₁ =>
    dsimp only
    rw [iterateE_direct _ _ offset data 0]
    unfold readLongs
    cases hrl : readLongsGo s₁.bitSize none (min (s₁.runLength - s₁.runRead) len) offset data
        s₁.curByte s₁.bitsLeft s₁.input 0 with
    | error e => rfl
    | ok r =>
      obtain ⟨data2, ret, cb2, bl2, bs2⟩ := r
      have hret := readLongsGo_ret s₁.bitSize _ _ _ _ _ _ _ _ hrl
      dsimp only at hret
      dsimp only [Except.map]
      rw [hret]
      rw [Nat.zero_add]

-- ### PATCHED_BASE chunks

theorem iterateE_patched :
    ∀ (n pos : Nat) (s : RleState) (data : List Nat),
      iterateE (stepStateOf .PATCHED_BASE) n s = .ok (patchedEmit none n pos s data).1 := by
  intro n
  induction n with
  | zero => intro pos s data; rfl
  | succ n ih =>
    intro pos s data
    rw [iterateE_succ]
    show iterateE (stepStateOf .PATCHED_BASE) n (patchedStepState s) = _
    unfold patchedEmit
    have hp : isPresent none pos = true := rfl
    rw [hp, if_pos rfl]
    unfold patchedStepState
    by_cases hg : s.unpackedIdx ≠ s.actualGap
    · simp only [if_pos hg]
      exact ih (pos + 1) _ _
    · simp only [if_neg hg]
      by_cases hpi : s.patchIdx + 1 < s.unpackedPatch.length
      · simp only [if_pos hpi]
        exact ih (pos + 1) _ _
      · simp only [if_neg hpi]
        exact ih (pos + 1) _ _

theorem nextPatched_chunk (s : RleState) (data : List Nat) (offset len : Nat) :
    (nextPatched s data offset len none).map (fun t => (t.1, t.2.1))
      = chunkStateOf .PATCHED_BASE s len := by
  unfold nextPatched chunkStateOf
  simp only [parseHeaderOf]
  cases hh : (if s.runRead = s.runLength then patchedParseHeader s else Except.ok s) with
  | error e => rfl
  | ok s₁ =>
    dsimp only
    rw [iterateE_patched _ offset s₁ data]
    rfl

-- ### DELTA chunks

theorem iterateE_deltaFixed :
    ∀ (k : Nat) (s : RleState), 1 ≤ s.runRead → s.bitSize = 0 →
      iterateE (stepStateOf .DELTA) k s = .ok (deltaFixedRun s k).1 := by
  intro k
  induction k with
  | zero => intro s _ _; rfl
  | succ k ih =>
    intro s h1 hbz
    rw [iterateE_succ]
    show (match deltaStepState s with
          | Except.error e => Except.error e
          | Except.ok s₂ => iterateE (stepStateOf .DELTA) k s₂) = _
    unfold deltaStepState
    rw [if_neg (by omega), if_pos hbz]
    dsimp only
    unfold deltaFixedRun
    exact ih _ (by dsimp only; omega) hbz

theorem deltaAccumRun_cons (neg : Bool) (s : RleState) (d : Nat) (ds : List Nat) :
    deltaAccumRun neg s (d :: ds)
      = ((deltaAccumRun neg
            { s with prevValue := if neg then sub64 s.prevValue d else add64 s.prevValue d }
            ds).1,
         (if neg then sub64 s.prevValue d else add64 s.prevValue d)
           :: (deltaAccumRun neg
                { s with prevValue := if neg then sub64 s.prevValue d else add64 s.prevValue d }
                ds).2) := rfl

theorem iterateE_deltaTail2 :
    ∀ (k : Nat) (s : RleState), 2 ≤ s.runRead → s.bitSize ≠ 0 →
      iterateE (stepStateOf .DELTA) k s = (deltaRunTail s k).map (·.1) := by
  intro k
  induction k with
  | zero =>
    intro s h2 hbz
    show Except.ok s = _
    unfold deltaRunTail
    rw [if_neg (by omega)]
    rfl
  | succ k ih =>
    intro s h2 hbz
    rw [iterateE_succ]
    show (match deltaStepState s with
          | Except.error e => Except.error e
          | Except.ok s₂ => iterateE (stepStateOf .DELTA) k s₂) = _
    unfold deltaStepState deltaRunTail
    rw [if_neg (by omega), if_neg hbz, if_neg (by omega), if_neg (by omega)]
    dsimp only
    unfold readValuesGo
    cases hrb : readBits s.bitSize s.curByte s.bitsLeft s.input with
    | error e => rfl
    | ok q =>
      obtain ⟨d, cb2, bl2, bs2⟩ := q
      dsimp only
      rw [ih _ (by dsimp only; omega) (by dsimp only; exact hbz)]
      unfold deltaRunTail
      rw [if_neg (by dsimp only; omega)]
      dsimp only
      cases hrv : readValuesGo s.bitSize k cb2 bl2 bs2 with
      | error e => rfl
      | ok r =>
        obtain ⟨ds, cbf, blf, bsf⟩ := r
        dsimp only [Except.map]
        rw [deltaAccumRun_cons]
        dsimp only
        have harr : s.runRead + 1 + k = s.runRead + (k + 1) := by omega
        rw [harr]

theorem iterateE_deltaTail1 (k : Nat) (s : RleState) (h1 : s.runRead = 1)
    (hbz : s.bitSize ≠ 0) :
    iterateE (stepStateOf .DELTA) k s = (deltaRunTail s k).map (·.1) := by
  cases k with
  | zero =>
    show Except.ok s = _
    unfold deltaRunTail
    rw [if_neg (by omega)]
    rfl
  | succ k =>
    rw [iterateE_succ]
    show (match deltaStepState s with
          | Except.error e => Except.error e
          | Except.ok s₂ => iterateE (stepStateOf .DELTA) k s₂) = _
    unfold deltaStepState
    rw [if_neg (by omega), if_neg hbz, if_pos (by omega)]
    dsimp only
    rw [iterateE_deltaTail2 k _ (by dsimp only; omega) (by dsimp only; exact hbz)]
    unfold deltaRunTail
    rw [if_neg (by dsimp only; omega), if_pos (And.intro (by omega) (by omega))]
    dsimp only
    rw [Nat.add_sub_cancel]
    cases hrv : readValuesGo s.bitSize k s.curByte s.bitsLeft s.input with
    | error e => rfl
    | ok r =>
      obtain ⟨ds, cbf, blf, bsf⟩ := r
      rfl

theorem iterateE_deltaRun (k : Nat) (s : RleState) :
    iterateE (stepStateOf .DELTA) k s = (deltaRun s k).map (·.1) := by
  unfold deltaRun
  by_cases h0 : s.runRead = 0 ∧ 0 < k
  · rw [if_pos h0]
    dsimp only
    obtain ⟨h0r, h0k⟩ := h0
    obtain ⟨k', rfl⟩ : ∃ k', k = k' + 1 := ⟨k - 1, by omega⟩
    rw [iterateE_succ]
    show (match deltaStepState s with
          | Except.error e => Except.error e
          | Except.ok s₂ => iterateE (stepStateOf .DELTA) k' s₂) = _
    unfold deltaStepState
    rw [if_pos h0r]
    dsimp only
    rw [Nat.add_sub_cancel]
    by_cases hbz : s.bitSize = 0
    · rw [if_pos (show RleState.bitSize { s with runRead := 1 } = 0 from hbz)]
      rw [iterateE_deltaFixed k' _ (by dsimp only; omega) (by dsimp only; exact hbz)]
      rfl
    · rw [if_neg (show ¬RleState.bitSize { s with runRead := 1 } = 0 from hbz)]
      rw [iterateE_deltaTail1 k' _ (by dsimp only) (by dsimp only; exact hbz)]
      cases hrt : deltaRunTail { s with runRead := 1 } k' with
      | error e => rfl
      | ok r =>
        obtain ⟨s2, vs⟩ := r
        rfl
  · rw [if_neg h0]
    dsimp only
    by_cases hbz : s.bitSize = 0
    · rw [if_pos hbz]
      by_cases h0r : s.runRead = 0
      · have hk : k = 0 := by omega
        subst hk
        rfl
      · rw [iterateE_deltaFixed k s (by omega) hbz]
        rfl
    · rw [if_neg hbz]
      have htail : iterateE (stepStateOf .DELTA) k s = (deltaRunTail s k).map (·.1) := by
        by_cases h0r : s.runRead = 0
        · have hk : k = 0 := by omega
          subst hk
          show Except.ok s = _
          unfold deltaRunTail
          rw [if_neg (by omega)]
          rfl
        · by_cases h1 : s.runRead = 1
          · exact iterateE_deltaTail1 k s h1 hbz
          · exact iterateE_deltaTail2 k s (by omega) hbz
      rw [htail]
      cases hrt : deltaRunTail s k with
      | error e => rfl
      | ok r =>
        obtain ⟨s2, vs⟩ := r
        rfl

theorem nextDelta_chunk (s : RleState) (data : List Nat) (offset len : Nat)
    (hb : offset + len ≤ data.length) :
    (nextDelta s data offset len none).map (fun t => (t.1, t.2.1))
      = chunkStateOf .DELTA s len := by
  unfold chunkStateOf
  simp only [parseHeaderOf]
  cases hh : (if s.runRead = s.runLength then deltaParseHeader s else Except.ok s) with
  | error e =>
    unfold nextDelta
    rw [hh]
    rfl
  | ok s₁ =>
    dsimp only
    rw [nextDelta_run none s s₁ data offset len hh hb]
    rw [countPresent_none]
    rw [iterateE_deltaRun]
    cases hd : deltaRun s₁ (min (s₁.runLength - s₁.runRead) len) with
    | error e => rfl
    | ok r =>
      obtain ⟨s2, vs⟩ := r
      rfl

-- ### The decoded buffer keeps its length

theorem shortRepeatEmit_len (fv : Nat) (mask : Option (List Bool)) :
    ∀ (n pos : Nat) (data : List Nat) (r : Nat),
      ((shortRepeatEmit fv mask n pos data r).1).length = data.length := by
  intro n
  induction n with
  | zero => intro pos data r; rfl
  | succ n ih =>
    intro pos data r
    unfold shortRepeatEmit
    by_cases hp : isPresent mask pos
    · rw [if_pos hp, ih]
      exact List.length_set ..
    · rw [if_neg hp, ih]

theorem readLongsGo_len (fb : Nat) (mask : Option (List Bool)) :
    ∀ (len pos : Nat) (data : List Nat) (cb bl : Nat) (bs : Bytes) (ret : Nat) r,
      readLongsGo fb mask len pos data cb bl bs ret = .ok r → r.1.length = data.length := by
  intro len
  induction len with
  | zero =>
    intro pos data cb bl bs ret r h
    simp only [readLongsGo, Except.ok.injEq] at h
    rw [← h]
  | succ len ih =>
    intro pos data cb bl bs ret r h
    unfold readLongsGo at h
    by_cases hp : isPresent mask pos
    · rw [if_pos hp] at h
      cases hrb : readBits fb cb bl bs with
      | error e => rw [hrb] at h; exact absurd h (by simp)
      | ok q =>
        obtain ⟨v, cb2, bl2, bs2⟩ := q
        rw [hrb] at h
        dsimp only at h
        have := ih (pos + 1) (data.set pos v) cb2 bl2 bs2 (ret + 1) r h
        rw [this]
        exact List.length_set ..
    · rw [if_neg hp] at h
      exact ih (pos + 1) data cb bl bs ret r h

theorem unZigZagRange_len (mask : Option (List Bool)) :
    ∀ (n pos : Nat) (data : List Nat), (unZigZagRange mask n pos data).length = data.length := by
  intro n
  induction n with
  | zero => intro pos data; rfl
  | succ n ih =>
    intro pos data
    unfold unZigZagRange
    by_cases hp : isPresent mask pos
    · rw [if_pos hp, ih]
      exact List.length_set ..
    · rw [if_neg hp, ih]

theorem patchedEmit_len (mask : Option (List Bool)) :
    ∀ (n pos : Nat) (s : RleState) (data : List Nat),
      ((patchedEmit mask n pos s data).2).length = data.length := by
  intro n
  induction n with
  | zero => intro pos s data; rfl
  | succ n ih =>
    intro pos s data
    unfold patchedEmit
    by_cases hp : isPresent mask pos
    · rw [if_pos hp]
      by_cases hg : s.unpackedIdx ≠ s.actualGap
      · rw [if_pos hg, ih]
        exact List.length_set ..
      · rw [if_neg hg]
        dsimp only
        by_cases hpi : s.patchIdx + 1 < s.unpackedPatch.length
        · rw [if_pos hpi, ih]
          exact List.length_set ..
        · rw [if_neg hpi, ih]
          exact List.length_set ..
    · rw [if_neg hp, ih]

theorem nextShortRepeats_len (s : RleState) (data : List Nat) (offset len : Nat)
    (mask : Option (List Bool)) (n' : Nat) (s' : RleState) (data' : List Nat)
    (h : nextShortRepeats s data offset len mask = .ok (n', s', data')) :
    data'.length = data.length := by
  unfold nextShortRepeats at h
  cases hh : (if s.runRead = s.runLength then shortRepeatParseHeader s else Except.ok s) with
  | error e => rw [hh] at h; exact absurd h (by simp)
  | ok s₁ =>
    rw [hh] at h
    simp only [Except.ok.injEq, Prod.mk.injEq] at h
    obtain ⟨-, -, hdata⟩ := h
    rw [← hdata]
    exact shortRepeatEmit_len ..

theorem nextDirect_len (s : RleState) (data : List Nat) (offset len : Nat)
    (mask : Option (List Bool)) (n' : Nat) (s' : RleState) (data' : List Nat)
    (h : nextDirect s data offset len mask = .ok (n', s', data')) :
    data'.length = data.length := by
  unfold nextDirect at h
  cases hh : (if s.runRead = s.runLength then directParseHeader s else Except.ok s) with
  | error e => rw [hh] at h; exact absurd h (by simp)
  | ok s₁ =>
    rw [hh] at h
    dsimp only at h
    cases hrl : readLongs data offset (min (s₁.runLength - s₁.runRead) len) s₁.bitSize mask
        s₁.curByte s₁.bitsLeft s₁.input with
    | error e => rw [hrl] at h; exact absurd h (by simp)
    | ok r =>
      obtain ⟨data2, ret, cb2, bl2, bs2⟩ := r
      rw [hrl] at h
      simp only [Except.ok.injEq, Prod.mk.injEq] at h
      obtain ⟨-, -, hdata⟩ := h
      have hd2 : data2.length = data.length := readLongsGo_len _ _ _ _ _ _ _ _ _ _ hrl
      rw [← hdata]
      by_cases hs : s₁.isSigned
      · rw [if_pos hs, unZigZagRange_len]
        exact hd2
      · rw [if_neg hs]
        exact hd2

theorem nextPatched_len (s : RleState) (data : List Nat) (offset len : Nat)
    (mask : Option (List Bool)) (n' : Nat) (s' : RleState) (data' : List Nat)
    (h : nextPatched s data offset len mask = .ok (n', s', data')) :
    data'.length = data.length := by
  unfold nextPatched at h
  cases hh : (if s.runRead = s.runLength then patchedParseHeader s else Except.ok s) with
  | error e => rw [hh] at h; exact absurd h (by simp)
  | ok s₁ =>
    rw [hh] at h
    simp only [Except.ok.injEq, Prod.mk.injEq] at h
    obtain ⟨-, -, hdata⟩ := h
    rw [← hdata]
    exact patchedEmit_len ..

theorem nextDelta_len (s : RleState) (data : List Nat) (offset len : Nat)
    (mask : Option (List Bool)) (n' : Nat) (s' : RleState) (data' : List Nat)
    (hb : offset + len ≤ data.length)
    (h : nextDelta s data offset len mask = .ok (n', s', data')) :
    data'.length = data.length := by
  cases hh : (if s.runRead = s.runLength then deltaParseHeader s else Except.ok s) with
  | error e =>
    unfold nextDelta at h
    rw [hh] at h
    exact absurd h (by simp)
  | ok s₁ =>
    rw [nextDelta_run mask s s₁ data offset len hh hb] at h
    cases hd : deltaRun s₁
        (countPresent mask offset (min (s₁.runLength - s₁.runRead) len)) with
    | error e => rw [hd] at h; exact absurd h (by simp [Except.map])
    | ok r =>
      obtain ⟨s2, vs⟩ := r
      rw [hd] at h
      simp only [Except.map, Except.ok.injEq, Prod.mk.injEq] at h
      obtain ⟨-, -, hdata⟩ := h
      rw [← hdata]
      exact writeSeq_length ..

-- ### Chunks of the loop as runs of the per-value step

theorem iter_value_chunk (enc : EncodingType) (n m : Nat) (s : RleState)
    (hnl : s.runRead + n ≤ s.runLength) (henc : decodeEncoding s.firstByte = some enc) :
    iterateE valueStepState (n + m) s
      = match iterateE (stepStateOf enc) n s with
        | .error e => .error e
        | .ok s' => iterateE valueStepState m s' := by
  rw [iterateE_add, valueStep_midrun enc n s henc hnl]

theorem chunkStateOf_post (enc : EncodingType) (s : RleState) (len n : Nat) (s' : RleState)
    (hinv : s.runRead ≤ s.runLength)
    (h : chunkStateOf enc s len = .ok (n, s')) :
    n ≤ len ∧ s'.runRead ≤ s'.runLength ∧ s'.firstByte = s.firstByte
      ∧ (1 ≤ len → s.runRead = s.runLength → 1 ≤ n)
      ∧ (s.runRead ≠ s.runLength → 1 ≤ len → 1 ≤ n) := by
  unfold chunkStateOf at h
  cases hh : (if s.runRead = s.runLength then parseHeaderOf enc s else Except.ok s) with
  | error e => rw [hh] at h; exact absurd h (by simp)
  | ok s₁ =>
    rw [hh] at h
    dsimp only at h
    cases hit : iterateE (stepStateOf enc) (min (s₁.runLength - s₁.runRead) len) s₁ with
    | error e => rw [hit] at h; exact absurd h (by simp)
    | ok s₂ =>
      rw [hit] at h
      simp only [Except.ok.injEq, Prod.mk.injEq] at h
      obtain ⟨hn, hs⟩ := h
      obtain ⟨p1, p2, p3⟩ := iterateE_step_post enc _ s₁ s₂ hit
      have hb1 : s₁.firstByte = s.firstByte ∧ s₁.runRead ≤ s₁.runLength
          ∧ (s.runRead = s.runLength → s₁.runRead = 0 ∧ 1 ≤ s₁.runLength)
          ∧ (s.runRead ≠ s.runLength → s₁ = s) := by
        by_cases hdr : s.runRead = s.runLength
        · rw [if_pos hdr] at hh
          obtain ⟨q1, q2, q3⟩ := parseHeaderOf_post enc s s₁ hh
          exact ⟨q3, by omega, fun _ => ⟨q1, q2⟩, fun hc => absurd hdr hc⟩
        · rw [if_neg hdr] at hh
          have : s₁ = s := by
            simpa using hh.symm
          subst this
          exact ⟨rfl, hinv, fun hc => absurd hc hdr, fun _ => rfl⟩
      obtain ⟨b1, b2, b3, b4⟩ := hb1
      refine ⟨by omega, ?_, ?_, ?_, ?_⟩
      · rw [← hs] at *
        rw [p1, p2]
        have := Nat.min_le_left (s₁.runLength - s₁.runRead) len
        omega
      · rw [← hs, p3, b1]
      · intro hlen hdr
        obtain ⟨q1, q2⟩ := b3 hdr
        rw [← hn]
        omega
      · intro hdr hlen
        have := b4 hdr
        subst this
        rw [← hn]
        omega

theorem iter_value_chunkB (enc : EncodingType) (s : RleState) (rem : Nat)
    (hdr : s.runRead ≠ s.runLength) (hinv : s.runRead ≤ s.runLength)
    (henc : decodeEncoding s.firstByte = some enc) :
    iterateE valueStepState rem s
      = match chunkStateOf enc s rem with
        | .error e => .error e
        | .ok p => iterateE valueStepState (rem - p.1) p.2 := by
  unfold chunkStateOf
  rw [if_neg hdr]
  dsimp only
  have hn : min (s.runLength - s.runRead) rem ≤ rem := Nat.min_le_right _ _
  have hnl : s.runRead + min (s.runLength - s.runRead) rem ≤ s.runLength := by
    have := Nat.min_le_left (s.runLength - s.runRead) rem
    omega
  have key := iter_value_chunk enc (min (s.runLength - s.runRead) rem)
      (rem - min (s.runLength - s.runRead) rem) s hnl henc
  have hsum : min (s.runLength - s.runRead) rem
      + (rem - min (s.runLength - s.runRead) rem) = rem := by omega
  rw [hsum] at key
  rw [key]
  cases hit : iterateE (stepStateOf enc) (min (s.runLength - s.runRead) rem) s with
  | error e => rfl
  | ok s' => rfl

theorem iter_value_chunkA (enc : EncodingType) (s : RleState) (fb : Nat) (input : Bytes)
    (rem : Nat) (hdr : s.runRead = s.runLength) (hrem : 1 ≤ rem)
    (hby : readByteB s.input = .ok (fb, input)) (hde : decodeEncoding fb = some enc) :
    iterateE valueStepState rem s
      = match chunkStateOf enc { s with firstByte := fb, input := input } rem with
        | .error e => .error e
        | .ok p => iterateE valueStepState (rem - p.1) p.2 := by
  obtain ⟨r', rfl⟩ : ∃ r', rem = r' + 1 := ⟨rem - 1, by omega⟩
  rw [iterateE_succ, valueStep_header s hdr, hby]
  dsimp only
  rw [hde]
  dsimp only
  unfold chunkStateOf
  rw [if_pos (show RleState.runRead { s with firstByte := fb, input := input }
        = RleState.runLength { s with firstByte := fb, input := input } from hdr)]
  cases hp : parseHeaderOf enc { s with firstByte := fb, input := input } with
  | error e => rfl
  | ok s₁ =>
    dsimp only
    obtain ⟨q1, q2, q3⟩ := parseHeaderOf_post enc _ s₁ hp
    obtain ⟨n', hn'⟩ : ∃ n', min (s₁.runLength - s₁.runRead) (r' + 1) = n' + 1 :=
      ⟨min (s₁.runLength - s₁.runRead) (r' + 1) - 1, by omega⟩
    rw [hn', iterateE_succ]
    cases hstep : stepStateOf enc s₁ with
    | error e => rfl
    | ok s₂ =>
      obtain ⟨p1, p2, p3⟩ := stepStateOf_post enc s₁ s₂ hstep
      have hmin : min (s₁.runLength - s₁.runRead) (r' + 1) ≤ r' + 1 := Nat.min_le_right _ _
      have hminl : min (s₁.runLength - s₁.runRead) (r' + 1) ≤ s₁.runLength - s₁.runRead :=
        Nat.min_le_left _ _
      have hnl₂ : s₂.runRead + n' ≤ s₂.runLength := by omega
      have henc₂ : decodeEncoding s₂.firstByte = some enc := by
        rw [p3, q3]
        exact hde
      have key := iter_value_chunk enc n' (r' - n') s₂ hnl₂ henc₂
      have hsum : n' + (r' - n') = r' := by omega
      rw [hsum] at key
      dsimp only
      rw [key]
      cases hit : iterateE (stepStateOf enc) n' s₂ with
      | error e => rfl
      | ok s₃ =>
        dsimp only
        have harr : r' + 1 - (n' + 1) = r' - n' := by omega
        rw [harr]

theorem nextLoopF_state :
    ∀ (fuel numValues : Nat) (s : RleState) (data : List Nat) (nRead : Nat),
      numValues - nRead ≤ fuel → s.runRead ≤ s.runLength → numValues ≤ data.length →
      (nextLoopF none numValues fuel s data nRead).map (fun t => t.1)
        = iterateE valueStepState (numValues - nRead) s := by
  intro fuel
  induction fuel with
  | zero =>
    intro numValues s data nRead hfuel hinv hlen
    have h0 : numValues - nRead = 0 := by omega
    rw [h0]
    unfold nextLoopF
    rw [if_neg (by omega)]
    rfl
  | succ fuel ih =>
    intro numValues s data nRead hfuel hinv hlen
    by_cases hlt : nRead < numValues
    case neg =>
      have h0 : numValues - nRead = 0 := by omega
      rw [h0]
      unfold nextLoopF
      rw [if_neg hlt]
      rfl
    case pos =>
    unfold nextLoopF
    rw [if_pos hlt]
    by_cases hdr : s.runRead = s.runLength
    · rw [if_pos hdr]
      cases hby : readByteB s.input with
      | error e =>
        dsimp only
        obtain ⟨r', hr'⟩ : ∃ r', numValues - nRead = r' + 1 :=
          ⟨numValues - nRead - 1, by omega⟩
        rw [hr', iterateE_succ, valueStep_header s hdr, hby]
        rfl
      | ok p =>
        obtain ⟨fb, input⟩ := p
        dsimp only
        cases hde : decodeEncoding fb with
        | none =>
          dsimp only
          obtain ⟨r', hr'⟩ : ∃ r', numValues - nRead = r' + 1 :=
            ⟨numValues - nRead - 1, by omega⟩
          rw [hr', iterateE_succ, valueStep_header s hdr, hby]
          dsimp only
          rw [hde]
          rfl
        | some enc =>
          have hA := iter_value_chunkA enc s fb input (numValues - nRead) hdr
            (by omega) hby hde
          rw [hA]
          have hbinv : RleState.runRead { s with firstByte := fb, input := input }
              ≤ RleState.runLength { s with firstByte := fb, input := input } := hinv
          have hbd : nRead + (numValues - nRead) ≤ data.length := by omega
          cases enc with
          | SHORT_REPEAT =>
            dsimp only
            have hchunk := nextShortRepeats_chunk { s with firstByte := fb, input := input }
              data nRead (numValues - nRead)
            cases hx : nextShortRepeats { s with firstByte := fb, input := input }
                data nRead (numValues - nRead) none with
            | error e =>
              rw [hx] at hchunk
              rw [← hchunk]
              rfl
            | ok t =>
              obtain ⟨n, s', data'⟩ := t
              rw [hx] at hchunk
              rw [← hchunk]
              dsimp only
              obtain ⟨c1, c2, c3, c4, c5⟩ := chunkStateOf_post .SHORT_REPEAT
                { s with firstByte := fb, input := input } (numValues - nRead) n s' hbinv
                hchunk.symm
              have hn1 : 1 ≤ n := c4 (by omega) hdr
              have hlen' : data'.length = data.length :=
                nextShortRepeats_len _ _ _ _ _ _ _ _ hx
              rw [ih numValues s' data' (nRead + n) (by omega) c2 (by omega)]
              have harr : numValues - (nRead + n) = numValues - nRead - n := by omega
              rw [harr]
              rfl
          | DIRECT =>
            dsimp only
            have hchunk := nextDirect_chunk { s with firstByte := fb, input := input }
              data nRead (numValues - nRead)
            cases hx : nextDirect { s with firstByte := fb, input := input }
                data nRead (numValues - nRead) none with
            | error e =>
              rw [hx] at hchunk
              rw [← hchunk]
              rfl
            | ok t =>
              obtain ⟨n, s', data'⟩ := t
              rw [hx] at hchunk
              rw [← hchunk]
              dsimp only
              obtain ⟨c1, c2, c3, c4, c5⟩ := chunkStateOf_post .DIRECT
                { s with firstByte := fb, input := input } (numValues - nRead) n s' hbinv
                hchunk.symm
              have hn1 : 1 ≤ n := c4 (by omega) hdr
              have hlen' : data'.length = data.length :=
                nextDirect_len _ _ _ _ _ _ _ _ hx
              rw [ih numValues s' data' (nRead + n) (by omega) c2 (by omega)]
              have harr : numValues - (nRead + n) = numValues - nRead - n := by omega
              rw [harr]
              rfl
          | PATCHED_BASE =>
            dsimp only
            have hchunk := nextPatched_chunk { s with firstByte := fb, input := input }
              data nRead (numValues - nRead)
            cases hx : nextPatched { s with firstByte := fb, input := input }
                data nRead (numValues - nRead) none with
            | error e =>
              rw [hx] at hchunk
              rw [← hchunk]
              rfl
            | ok t =>
              obtain ⟨n, s', data'⟩ := t
              rw [hx] at hchunk
              rw [← hchunk]
              dsimp only
              obtain ⟨c1, c2, c3, c4, c5⟩ := chunkStateOf_post .PATCHED_BASE
                { s with firstByte := fb, input := input } (numValues - nRead) n s' hbinv
                hchunk.symm
              have hn1 : 1 ≤ n := c4 (by omega) hdr
              have hlen' : data'.length = data.length :=
                nextPatched_len _ _ _ _ _ _ _ _ hx
              rw [ih numValues s' data' (nRead + n) (by omega) c2 (by omega)]
              have harr : numValues - (nRead + n) = numValues - nRead - n := by omega
              rw [harr]
              rfl
          | DELTA =>
            dsimp only
            have hchunk := nextDelta_chunk { s with firstByte := fb, input := input }
              data nRead (numValues - nRead) hbd
            cases hx : nextDelta { s with firstByte := fb, input := input }
                data nRead (numValues - nRead) none with
            | error e =>
              rw [hx] at hchunk
              rw [← hchunk]
              rfl
            | ok t =>
              obtain ⟨n, s', data'⟩ := t
              rw [hx] at hchunk
              rw [← hchunk]
              dsimp only
              obtain ⟨c1, c2, c3, c4, c5⟩ := chunkStateOf_post .DELTA
                { s with firstByte := fb, input := input } (numValues - nRead) n s' hbinv
                hchunk.symm
              have hn1 : 1 ≤ n := c4 (by omega) hdr
              have hlen' : data'.length = data.length :=
                nextDelta_len _ _ _ _ _ _ _ _ hbd hx
              rw [ih numValues s' data' (nRead + n) (by omega) c2 (by omega)]
              have harr : numValues - (nRead + n) = numValues - nRead - n := by omega
              rw [harr]
              rfl
    · rw [if_neg hdr]
      dsimp only
      cases hde : decodeEncoding s.firstByte with
      | none =>
        dsimp only
        obtain ⟨r', hr'⟩ : ∃ r', numValues - nRead = r' + 1 :=
          ⟨numValues - nRead - 1, by omega⟩
        have hval : valueStepState s = Except.error (.parseError "unknown encoding") := by
          unfold valueStepState
          rw [if_neg hdr]
          dsimp only
          rw [hde]
        rw [hr', iterateE_succ, hval]
        rfl
      | some enc =>
        have hB := iter_value_chunkB enc s (numValues - nRead) hdr hinv hde
        rw [hB]
        have hbd : nRead + (numValues - nRead) ≤ data.length := by omega
        cases enc with
        | SHORT_REPEAT =>
          dsimp only
          have hchunk := nextShortRepeats_chunk s data nRead (numValues - nRead)
          cases hx : nextShortRepeats s data nRead (numValues - nRead) none with
          | error e =>
            rw [hx] at hchunk
            rw [← hchunk]
            rfl
          | ok t =>
            obtain ⟨n, s', data'⟩ := t
            rw [hx] at hchunk
            rw [← hchunk]
            dsimp only
            obtain ⟨c1, c2, c3, c4, c5⟩ := chunkStateOf_post .SHORT_REPEAT s (numValues - nRead) n s'
              hinv hchunk.symm
            have hn1 : 1 ≤ n := c5 hdr (by omega)
            have hlen' : data'.length = data.length :=
              nextShortRepeats_len _ _ _ _ _ _ _ _ hx
            rw [ih numValues s' data' (nRead + n) (by omega) c2 (by omega)]
            have harr : numValues - (nRead + n) = numValues - nRead - n := by omega
            rw [harr]
            rfl
        | DIRECT =>
          dsimp only
          have hchunk := nextDirect_chunk s data nRead (numValues - nRead)
          cases hx : nextDirect s data nRead (numValues - nRead) none with
          | error e =>
            rw [hx] at hchunk
            rw [← hchunk]
            rfl
          | ok t =>
            obtain ⟨n, s', data'⟩ := t
            rw [hx] at hchunk
            rw [← hchunk]
            dsimp only
            obtain ⟨c1, c2, c3, c4, c5⟩ := chunkStateOf_post .DIRECT s (numValues - nRead) n s'
              hinv hchunk.symm
            have hn1 : 1 ≤ n := c5 hdr (by omega)
            have hlen' : data'.length = data.length :=
              nextDirect_len _ _ _ _ _ _ _ _ hx
            rw [ih numValues s' data' (nRead + n) (by omega) c2 (by omega)]
            have harr : numValues - (nRead + n) = numValues - nRead - n := by omega
            rw [harr]
            rfl
        | PATCHED_BASE =>
          dsimp only
          have hchunk := nextPatched_chunk s data nRead (numValues - nRead)
          cases hx : nextPatched s data nRead (numValues - nRead) none with
          | error e =>
            rw [hx] at hchunk
            rw [← hchunk]
            rfl
          | ok t =>
            obtain ⟨n, s', data'⟩ := t
            rw [hx] at hchunk
            rw [← hchunk]
            dsimp only
            obtain ⟨c1, c2, c3, c4, c5⟩ := chunkStateOf_post .PATCHED_BASE s (numValues - nRead) n s'
              hinv hchunk.symm
            have hn1 : 1 ≤ n := c5 hdr (by omega)
            have hlen' : data'.length = data.length :=
              nextPatched_len _ _ _ _ _ _ _ _ hx
            rw [ih numValues s' data' (nRead + n) (by omega) c2 (by omega)]
            have harr : numValues - (nRead + n) = numValues - nRead - n := by omega
            rw [harr]
            rfl
        | DELTA =>
          dsimp only
          have hchunk := nextDelta_chunk s data nRead (numValues - nRead) hbd
          cases hx : nextDelta s data nRead (numValues - nRead) none with
          | error e =>
            rw [hx] at hchunk
            rw [← hchunk]
            rfl
          | ok t =>
            obtain ⟨n, s', data'⟩ := t
            rw [hx] at hchunk
            rw [← hchunk]
            dsimp only
            obtain ⟨c1, c2, c3, c4, c5⟩ := chunkStateOf_post .DELTA s (numValues - nRead) n s'
              hinv hchunk.symm
            have hn1 : 1 ≤ n := c5 hdr (by omega)
            have hlen' : data'.length = data.length :=
              nextDelta_len _ _ _ _ _ _ _ _ hbd hx
            rw [ih numValues s' data' (nRead + n) (by omega) c2 (by omega)]
            have harr : numValues - (nRead + n) = numValues - nRead - n := by omega
            rw [harr]
            rfl

theorem valueStep_inv (s s' : RleState) (hinv : s.runRead ≤ s.runLength)
    (h : valueStepState s = .ok s') : s'.runRead ≤ s'.runLength := by
  unfold valueStepState at h
  by_cases hdr : s.runRead = s.runLength
  · rw [if_pos hdr] at h
    cases hby : readByteB s.input with
    | error e => rw [hby] at h; exact absurd h (by simp)
    | ok p =>
      obtain ⟨fb, input⟩ := p
      rw [hby] at h
      dsimp only at h
      cases hde : decodeEncoding fb with
      | none => rw [hde] at h; exact absurd h (by simp)
      | some enc =>
        rw [hde] at h
        dsimp only at h
        rw [if_pos hdr] at h
        cases hp : parseHeaderOf enc { s with firstByte := fb, input := input } with
        | error e => rw [hp] at h; exact absurd h (by simp)
        | ok s₁ =>
          rw [hp] at h
          obtain ⟨q1, q2, q3⟩ := parseHeaderOf_post enc _ s₁ hp
          obtain ⟨p1, p2, p3⟩ := stepStateOf_post enc s₁ s' h
          omega
  · rw [if_neg hdr] at h
    dsimp only at h
    cases hde : decodeEncoding s.firstByte with
    | none => rw [hde] at h; exact absurd h (by simp)
    | some enc =>
      rw [hde] at h
      dsimp only at h
      rw [if_neg hdr] at h
      obtain ⟨p1, p2, p3⟩ := stepStateOf_post enc s s' h
      omega

theorem iterate_value_inv :
    ∀ (n : Nat) (s s' : RleState), s.runRead ≤ s.runLength →
      iterateE valueStepState n s = .ok s' → s'.runRead ≤ s'.runLength := by
  intro n
  induction n with
  | zero =>
    intro s s' hinv h
    simp only [iterateE, Except.ok.injEq] at h
    rw [← h]
    exact hinv
  | succ n ih =>
    intro s s' hinv h
    rw [iterateE_succ] at h
    cases hf : valueStepState s with
    | error e => rw [hf] at h; exact absurd h (by simp)
    | ok s₁ =>
      rw [hf] at h
      exact ih s₁ s' (valueStep_inv s s₁ hinv hf) h

theorem rleNext_state (s : RleState) (data : List Nat) (k : Nat)
    (hinv : s.runRead ≤ s.runLength) (hlen : k ≤ data.length) :
    (rleNext s data k none).map (fun t => t.1) = iterateE valueStepState k s := by
  unfold rleNext
  have h := nextLoopF_state k k s data 0 (by omega) hinv hlen
  rw [Nat.sub_zero] at h
  exact h

theorem skipGo_iterate :
    ∀ (fuel T : Nat) (s : RleState), T ≤ fuel → s.runRead ≤ s.runLength →
      skipGo fuel s T = iterateE valueStepState T s := by
  intro fuel
  induction fuel with
  | zero =>
    intro T s hT hinv
    have h0 : T = 0 := by omega
    subst h0
    rfl
  | succ fuel ih =>
    intro T s hT hinv
    by_cases hT0 : T = 0
    · subst hT0
      rfl
    · unfold skipGo
      rw [if_neg hT0]
      dsimp only
      have hc1 : min 64 T ≤ (List.replicate 64 (0 : Nat)).length := by
        simp [Nat.min_le_left]
      have hr := rleNext_state s (List.replicate 64 0) (min 64 T) hinv hc1
      have hsplit := iterateE_add valueStepState (min 64 T) (T - min 64 T) s
      have hTsum : min 64 T + (T - min 64 T) = T := by
        have := Nat.min_le_right 64 T
        omega
      rw [hTsum] at hsplit
      rw [hsplit]
      cases hx : rleNext s (List.replicate 64 0) (min 64 T) none with
      | error e =>
        rw [hx] at hr
        rw [← hr]
        rfl
      | ok p =>
        obtain ⟨s₂, d₂⟩ := p
        rw [hx] at hr
        dsimp only [Except.map] at hr
        rw [← hr]
        have hinv₂ : s₂.runRead ≤ s₂.runLength :=
          iterate_value_inv (min 64 T) s s₂ hinv hr.symm
        exact ih (T - min 64 T) s₂ (by omega) hinv₂

set_option maxHeartbeats 800000 in
/-- C8: for a decoder state maintaining the `runRead ≤ runLength` invariant,
`skip(n)` — which the source implements by decoding `min(64, n)` values at a
time into the 64-entry `dummy` buffer — yields exactly the decoder state of
decoding all `n` values in one call into a throwaway buffer and discarding
them; consequently any subsequent `next(dst, m, notNull)` returns the same
values, buffer and final state either way. -/
theorem rleSkip_decode_discard (s : RleState) (n : Nat)
    (hinv : s.runRead ≤ s.runLength) :
    rleSkip s n = skipByDecodingAndDiscarding s n
    ∧ ∀ (m : Nat) (dst : List Nat) (mask : Option (List Bool)),
        (match rleSkip s n with
         | Except.error e => Except.error e
         | Except.ok s' => rleNext s' dst m mask)
          = (match skipByDecodingAndDiscarding s n with
             | Except.error e => Except.error e
             | Except.ok s' => rleNext s' dst m mask) := by
  have h1 : rleSkip s n = iterateE valueStepState n s :=
    skipGo_iterate n n s (le_refl n) hinv
  have h2 : skipByDecodingAndDiscarding s n = iterateE valueStepState n s := by
    unfold skipByDecodingAndDiscarding
    exact rleNext_state s (List.replicate n 0) n hinv (by simp)
  refine ⟨by rw [h1, h2], ?_⟩
  intro m dst mask
  rw [h1, h2]

/-- C8 (witness): a fresh decoder over the SHORT_REPEAT stream
`[0x00, 0x07]` (three values of 7). -/
theorem rleSkip_decode_discard_witness :
    (initialRleState [0, 7] false).runRead ≤ (initialRleState [0, 7] false).runLength
    ∧ rleSkip (initialRleState [0, 7] false) 2
        = skipByDecodingAndDiscarding (initialRleState [0, 7] false) 2 :=
  ⟨by decide, (rleSkip_decode_discard (initialRleState [0, 7] false) 2 (by decide)).1⟩

end Orc
